import Mathlib

/-!
Verification development for the MRPT data-association engine
(libs/slam/include/mrpt/slam/data_association.h) and the
probability-density entropy helper
(libs/math/include/mrpt/math/CProbabilityDensityFunction.h).

The repository ships only the declarations of
data_association_full_covariance and
data_association_independent_predictions (the header); the algorithm
bodies are modelled here from the specification (spec.md sections 4, 6
and 7), with the dense linear-algebra collaborators (matrix inversion,
Cholesky, the chi-square inverse quantile function) kept as explicit
functional parameters, exactly as the specification treats them
(external collaborators consumed, not reimplemented).
-/

namespace MRPT

/-- Different algorithms for data association (enum TDataAssociationMethod
in data_association.h). -/
inductive TDataAssociationMethod where
  | assocNN : TDataAssociationMethod
  | assocJCBB : TDataAssociationMethod
deriving DecidableEq, Repr

/-- Different metrics for data association (enum TDataAssociationMetric
in data_association.h). -/
inductive TDataAssociationMetric where
  | metricMaha : TDataAssociationMetric
  | metricML : TDataAssociationMetric
deriving DecidableEq, Repr

open TDataAssociationMethod TDataAssociationMetric

/-- A dynamically sized real matrix (mrpt::math::CMatrixDouble), with its
row and column counts and its entries held row by row. -/
structure CMatrixDouble where
  rows : Nat
  cols : Nat
  data : List (List ℚ)
deriving DecidableEq, Repr

/-- A dynamically sized boolean matrix (mrpt::math::CMatrixBool). -/
structure CMatrixBool where
  rows : Nat
  cols : Nat
  data : List (List Bool)
deriving DecidableEq, Repr

/-- Build an R x C matrix of rationals from an entry function. -/
def buildMatrixD (R C : Nat) (f : Nat → Nat → ℚ) : CMatrixDouble :=
  { rows := R, cols := C
    data := (List.range R).map fun r => (List.range C).map fun c => f r c }

/-- Build an R x C matrix of booleans from an entry function. -/
def buildMatrixB (R C : Nat) (f : Nat → Nat → Bool) : CMatrixBool :=
  { rows := R, cols := C
    data := (List.range R).map fun r => (List.range C).map fun c => f r c }

/-- The results record from data_association.h
(struct TDataAssociationResults).  The associations map from observation
index to prediction index (or custom ID) is held as an association list
with strictly increasing keys. -/
structure TDataAssociationResults where
  associations : List (Nat × Nat)
  distance : ℚ
  indiv_distances : CMatrixDouble
  indiv_compatibility : CMatrixBool
  indiv_compatibility_counts : List Nat
  nNodesExploredInJCBB : Nat
deriving DecidableEq, Repr

/-- The state established by the default constructor of
TDataAssociationResults: empty associations, distance 0 (member
initializer), 0 x 0 matrices, empty counts, node counter 0 (member
initializer). -/
def TDataAssociationResults.mkDefault : TDataAssociationResults :=
  { associations := []
    distance := 0
    indiv_distances := { rows := 0, cols := 0, data := [] }
    indiv_compatibility := { rows := 0, cols := 0, data := [] }
    indiv_compatibility_counts := []
    nNodesExploredInJCBB := 0 }

/-- TDataAssociationResults::clear(): clears the associations map, zeroes
the distance, resizes both matrices to 0 x 0, clears the counts vector
and zeroes the JCBB node counter. -/
def TDataAssociationResults.clear (_r : TDataAssociationResults) :
    TDataAssociationResults :=
  { associations := []
    distance := 0
    indiv_distances := { rows := 0, cols := 0, data := [] }
    indiv_compatibility := { rows := 0, cols := 0, data := [] }
    indiv_compatibility_counts := []
    nNodesExploredInJCBB := 0 }

/-! ### CProbabilityDensityFunction::getCovarianceEntropy -/

/-- std::numeric_limits of double: epsilon(), the clamp floor used by
getCovarianceEntropy. -/
def epsilonDouble : ℚ := 1 / 2 ^ 52

/-- The constant ln_2PI hard-coded in getCovarianceEntropy. -/
def ln_2PI : ℚ := 18378770664093454835606594728112 / 10 ^ 31

/-- The argument actually passed to log by getCovarianceEntropy:
std::max(det, std::numeric_limits of double epsilon()). -/
def covarianceEntropyLogArg (det : ℚ) : ℚ := max det epsilonDouble

/-- CProbabilityDensityFunction::getCovarianceEntropy, with the state
length, the logarithm (an external numeric routine) and the covariance
determinant (computed by the matrix library) passed explicitly:
0.5 * (STATE_LEN + STATE_LEN * ln_2PI + log (max det epsilon)). -/
def getCovarianceEntropy (STATE_LEN : Nat) (logFn : ℚ → ℚ) (det : ℚ) : ℚ :=
  (1 / 2) * ((STATE_LEN : ℚ) + (STATE_LEN : ℚ) * ln_2PI +
    logFn (covarianceEntropyLogArg det))

/-! ### The data-association engine

Modelled from the spec: the bodies of data_association_full_covariance
and data_association_independent_predictions are not part of the sampled
sources (only their declarations in data_association.h are), so the
engine below follows spec.md sections 4, 6 and 7.  The dense
linear-algebra collaborators are passed as functions: the pairwise
metric value, the joint statistic of a partial hypothesis, the
positive-definiteness validation of each prediction covariance block,
and the chi-square inverse quantile function. -/

/-- A partial association hypothesis: (observation, prediction) pairs,
most recently added pair first. -/
abbrev Hyp := List (Nat × Nat)

/-- Modelled from the spec: one association query.  M observations, N
predictions of dimension O; the metric and joint-statistic evaluations
and the covariance validation are the outputs of the external
linear-algebra collaborator; a `none` value models an
inversion/Cholesky failure (spec 4.1 and 7). -/
structure DAProblem where
  M : Nat
  N : Nat
  O : Nat
  indivDist : Nat → Nat → Option ℚ
  jointStat : List (Nat × Nat) → Option ℚ
  predCovPD : Nat → Bool

/-- Modelled from the spec (section 7): the error taxonomy surfaced to
the caller; the payload is the offending index. -/
inductive DAError where
  | invalidInput : Nat → DAError
  | numerical : Nat → DAError
deriving DecidableEq, Repr

/-- Modelled from the spec (4.1): the admissibility gate of the
compatibility metric.  Mahalanobis: d2 below the inverse chi-square
quantile at the given degrees of freedom; matching likelihood: logL at
least the threshold. -/
def metricGate (chi2inv : ℚ → Nat → ℚ) (metric : TDataAssociationMetric)
    (q : ℚ) (dof : Nat) (thrML : ℚ) (d : ℚ) : Bool :=
  match metric with
  | metricMaha => decide (d ≤ chi2inv q dof)
  | metricML => decide (thrML ≤ d)

/-- Modelled from the spec (4.1, 4.2): individual compatibility of
observation i with prediction j.  A numerical failure of the pair
(`none`) makes the pair not compatible rather than aborting. -/
def indivCompat (P : DAProblem) (chi2inv : ℚ → Nat → ℚ)
    (metric : TDataAssociationMetric) (q thrML : ℚ) (i j : Nat) : Bool :=
  match P.indivDist i j with
  | none => false
  | some d => metricGate chi2inv metric q P.O thrML d

/-- Modelled from the spec (4.4): the joint compatibility gate of a
partial hypothesis, at k times O degrees of freedom for k paired
entries; a numerical failure of the block (`none`) fails the gate. -/
def jointGate (P : DAProblem) (chi2inv : ℚ → Nat → ℚ)
    (jm : TDataAssociationMetric) (q thrML : ℚ) (h : Hyp) : Bool :=
  match P.jointStat h with
  | none => false
  | some d => metricGate chi2inv jm q (h.length * P.O) thrML d

/-- Modelled from the spec (4.5): the joint statistic of a hypothesis as
packaged in the result field distance (0 when the collaborator reports a
failure). -/
def statValue (P : DAProblem) (h : Hyp) : ℚ := (P.jointStat h).getD 0

/-- Modelled from the spec (4.4): ranking of complete hypotheses, first
by cardinality, then by joint statistic (lower Mahalanobis sum wins,
higher log-likelihood wins); a tie keeps the incumbent. -/
def betterHyp (P : DAProblem) (metric : TDataAssociationMetric)
    (h best : Hyp) : Bool :=
  if best.length < h.length then true
  else if h.length = best.length then
    match metric with
    | metricMaha => decide (statValue P h < statValue P best)
    | metricML => decide (statValue P best < statValue P h)
  else false

/-- Modelled from the spec (4.3): the greedy choice of the nearest
still-unclaimed individually compatible prediction for observation i,
ties broken by the lowest prediction index. -/
def nnBestFor (compat : Nat → Nat → Bool) (dist : Nat → Nat → Option ℚ)
    (N i : Nat) (claimed : List Nat) : Option (Nat × ℚ) :=
  (List.range N).foldl
    (fun acc j =>
      if claimed.contains j then acc
      else match dist i j with
        | none => acc
        | some d =>
          if compat i j then
            match acc with
            | none => some (j, d)
            | some jd => if d < jd.2 then some (j, d) else acc
          else acc)
    none

/-- Modelled from the spec (4.3): the greedy nearest-neighbor matcher;
observations processed in input order, chosen predictions marked
claimed, no backtracking. -/
def nnRun (compat : Nat → Nat → Bool) (dist : Nat → Nat → Option ℚ)
    (M N : Nat) : Hyp :=
  (List.range M).foldl
    (fun acc i =>
      match nnBestFor compat dist N i (acc.map Prod.snd) with
      | none => acc
      | some jd => acc ++ [(i, jd.1)])
    []

/-- Modelled from the spec (4.4): one candidate branch of a JCBB node at
observation i: prediction j is explored when it is unclaimed,
individually compatible, the enlarged hypothesis passes the joint gate,
and the branch could still beat the incumbent; `child` is the recursion
at the next observation. -/
def jcbbStep (P : DAProblem) (chi2inv : ℚ → Nat → ℚ)
    (metric jm : TDataAssociationMetric) (q thrML : ℚ)
    (child : Nat → Hyp → Hyp → Nat → Hyp × Nat) (r i : Nat) (h : Hyp)
    (acc : Hyp × Nat) (j : Nat) : Hyp × Nat :=
  if ((h.map Prod.snd).contains j = false ∧
      indivCompat P chi2inv metric q thrML i j = true ∧
      jointGate P chi2inv jm q thrML ((i, j) :: h) = true ∧
      acc.1.length < h.length + 1 + r) then
    child (i + 1) ((i, j) :: h) acc.1 acc.2
  else acc

/-- Modelled from the spec (4.4): one JCBB tree node at observation i
with fuel = M - i remaining observations.  The node increments the node
counter, explores the candidate branches for observation i in prediction
order, and finally recurses leaving i unassigned, under the
branch-and-bound rule: a branch whose cardinality potential cannot beat
the incumbent is pruned before being explored. -/
def jcbbGo (P : DAProblem) (chi2inv : ℚ → Nat → ℚ)
    (metric jm : TDataAssociationMetric) (q thrML : ℚ) :
    Nat → Nat → Hyp → Hyp → Nat → Hyp × Nat
  | 0, _i, h, best, cnt =>
    (if betterHyp P metric h best then h else best, cnt + 1)
  | (r + 1), i, h, best, cnt =>
    let fr := (List.range P.N).foldl
      (jcbbStep P chi2inv metric jm q thrML
        (jcbbGo P chi2inv metric jm q thrML r) r i h)
      (best, cnt + 1)
    if fr.1.length < h.length + r then
      jcbbGo P chi2inv metric jm q thrML r (i + 1) h fr.1 fr.2
    else fr

/-- Modelled from the spec (section 7): up-front validation of the
supplied prediction covariance blocks; the first failing index among
0..N-1 is surfaced. -/
def firstFailedCov : Nat → (Nat → Bool) → Option Nat
  | 0, _ => none
  | (n + 1), pd =>
    match firstFailedCov n pd with
    | some j => some j
    | none => if pd n then none else some n

/-- Modelled from the spec (4.5): translate the winning hypothesis
through the optional external-ID table; absent table, raw indices. -/
def remapIDs (predIDs : List Nat) (assoc : Hyp) : Hyp :=
  if predIDs.isEmpty then assoc
  else assoc.map (fun p => (p.1, predIDs.getD p.2 p.2))

/-- Modelled from the spec (4.3-4.4): run the selected matcher; an empty
observation or prediction set short-circuits to the empty hypothesis
with no search performed. -/
def daRun (P : DAProblem) (chi2inv : ℚ → Nat → ℚ)
    (method : TDataAssociationMethod) (metric : TDataAssociationMetric)
    (q : ℚ) (jm : TDataAssociationMetric) (thrML : ℚ) : Hyp × Nat :=
  if P.M = 0 ∨ P.N = 0 then ([], 0)
  else
    match method with
    | assocNN =>
      (nnRun (indivCompat P chi2inv metric q thrML) P.indivDist P.M P.N, 0)
    | assocJCBB =>
      let rj := jcbbGo P chi2inv metric jm q thrML P.M 0 [] [] 0
      (rj.1.reverse, rj.2)

/-- Modelled from the spec (4.5): package the winning hypothesis and the
diagnostics into TDataAssociationResults.  Per the indiv_distances
documentation in data_association.h, predictions index the rows and
observations index the columns of both matrices, and the counts vector
holds the per-observation column sums of the compatibility matrix. -/
def daPackage (P : DAProblem) (chi2inv : ℚ → Nat → ℚ)
    (method : TDataAssociationMethod) (metric : TDataAssociationMetric)
    (q : ℚ) (predictions_IDs : List Nat) (jm : TDataAssociationMetric)
    (thrML : ℚ) : TDataAssociationResults :=
  let run := daRun P chi2inv method metric q jm thrML
  { associations := remapIDs predictions_IDs run.1
    distance := statValue P run.1
    indiv_distances :=
      buildMatrixD P.N P.M (fun j i => (P.indivDist i j).getD 0)
    indiv_compatibility :=
      buildMatrixB P.N P.M (fun j i => indivCompat P chi2inv metric q thrML i j)
    indiv_compatibility_counts :=
      (List.range P.M).map
        (fun i =>
          ((List.range P.N).filter
            (fun j => indivCompat P chi2inv metric q thrML i j)).length)
    nNodesExploredInJCBB := run.2 }

/-- Modelled from the spec (sections 4-7): the full-covariance entry
point declared in data_association.h.  Validates shapes and covariance
blocks up front, treats empty observation or prediction sets as a valid
empty query, runs the selected matcher and packages the result.  The
spatial-index flag only accelerates the individual-compatibility
evaluation and does not change results, so it is not modelled. -/
def data_association_full_covariance (P : DAProblem)
    (chi2inv : ℚ → Nat → ℚ) (method : TDataAssociationMethod)
    (metric : TDataAssociationMetric) (chi2quantile : ℚ)
    (predictions_IDs : List Nat)
    (compatibilityTestMetric : TDataAssociationMetric)
    (log_ML_compat_test_threshold : ℚ) :
    Except DAError TDataAssociationResults :=
  if predictions_IDs.length ≠ 0 ∧ predictions_IDs.length ≠ P.N then
    .error (.invalidInput predictions_IDs.length)
  else
    match firstFailedCov P.N P.predCovPD with
    | some j => .error (.numerical j)
    | none =>
      .ok (daPackage P chi2inv method metric chi2quantile predictions_IDs
        compatibilityTestMetric log_ML_compat_test_threshold)

/-- Rational addition written through mkRat; equal to ordinary addition
(theorem qadd_eq_add below) but executable by kernel reduction. -/
def qadd (a b : ℚ) : ℚ :=
  mkRat (a.num * b.den + b.num * a.den) (a.den * b.den)

/-- Modelled from the spec (4.4, section 6): with independent
predictions the joint covariance is the block-diagonal stacking of the
per-prediction blocks, so the joint statistic of a hypothesis is the sum
of the individual pair statistics (both for the Mahalanobis sum and for
the joint log-likelihood); any failed pair fails the whole block. -/
def indepJointStat (dist : Nat → Nat → Option ℚ) (h : Hyp) : Option ℚ :=
  h.foldr
    (fun p acc =>
      match dist p.1 p.2, acc with
      | some d, some s => some (qadd d s)
      | _, _ => none)
    (some 0)

/-- Modelled from the spec: the independent-predictions entry point
declared in data_association.h; identical to the full-covariance engine
with the joint statistic built by independent stacking. -/
def data_association_independent_predictions (P : DAProblem)
    (chi2inv : ℚ → Nat → ℚ) (method : TDataAssociationMethod)
    (metric : TDataAssociationMetric) (chi2quantile : ℚ)
    (predictions_IDs : List Nat)
    (compatibilityTestMetric : TDataAssociationMetric)
    (log_ML_compat_test_threshold : ℚ) :
    Except DAError TDataAssociationResults :=
  data_association_full_covariance
    { P with jointStat := indepJointStat P.indivDist }
    chi2inv method metric chi2quantile predictions_IDs
    compatibilityTestMetric log_ML_compat_test_threshold

/-! ### Matrix accessors -/

/-- Entry (r, c) of a rational matrix, when in range. -/
def CMatrixDouble.entry (m : CMatrixDouble) (r c : Nat) : Option ℚ :=
  (m.data.get? r).bind fun row => row.get? c

/-- Entry (r, c) of a boolean matrix, when in range. -/
def CMatrixBool.entry (m : CMatrixBool) (r c : Nat) : Option Bool :=
  (m.data.get? r).bind fun row => row.get? c

/-- Extract the payload of a successful query (default-constructed
results otherwise). -/
def resOf (e : Except DAError TDataAssociationResults) :
    TDataAssociationResults :=
  match e with
  | Except.ok r => r
  | Except.error _ => TDataAssociationResults.mkDefault

/-! ### Auxiliary notions used by the verification -/

/-- Well-formedness of a partial hypothesis at observation cursor a:
distinct observation keys, all below a; distinct prediction values, all
below N. -/
def goodHyp (a N : Nat) (h : Hyp) : Prop :=
  (h.map Prod.fst).Nodup ∧ (h.map Prod.snd).Nodup ∧
  ∀ p ∈ h, p.1 < a ∧ p.2 < N

/-- A gate-feasible extension chain: the pairs of ext, listed by
strictly increasing observation index starting at cursor i with fuel r,
can all be accepted on top of h — each assigned prediction is unclaimed,
in range, individually compatible, and each enlarged initial segment
passes the joint compatibility gate. -/
def extChainOK (P : DAProblem) (chi2inv : ℚ → Nat → ℚ)
    (metric jm : TDataAssociationMetric) (q thrML : ℚ) :
    Nat → Nat → Hyp → Hyp → Bool
  | 0, _i, _h, ext => ext.isEmpty
  | (r + 1), i, h, ext =>
    match ext with
    | [] => true
    | (o, j) :: rest =>
      if o = i then
        (!(h.map Prod.snd).contains j) &&
        decide (j < P.N) &&
        indivCompat P chi2inv metric q thrML i j &&
        jointGate P chi2inv jm q thrML ((i, j) :: h) &&
        extChainOK P chi2inv metric jm q thrML r (i + 1) ((i, j) :: h) rest
      else
        decide (i < o) &&
        extChainOK P chi2inv metric jm q thrML r (i + 1) h ((o, j) :: rest)

/-- The node-budget function of the branch-and-bound analysis: an upper
bound on the number of recursive JCBB calls of a node with the given
fuel and the given slack (cardinality potential minus incumbent
cardinality). -/
def Bnd (N : Nat) : Nat → Nat → Nat
  | 0, _ => 1
  | (r + 1), S =>
    if S = 0 then 1
    else 1 + Bnd N r S
      + (if 1 ≤ min S r then (N - 1) * Bnd N r (min S r) else 0)
      + (if 2 ≤ min S r then Bnd N r (min (S - 1) (r - 1)) else 0)

/-! ### Concrete inputs used by counterexamples and witnesses -/

/-- A chi-square quantile stand-in, constant in the quantile, increasing
in the degrees of freedom. -/
def chi2invA : ℚ → Nat → ℚ := fun _ k => if k ≤ 1 then 6 else 9

/-- A chi-square quantile stand-in that is monotone in the quantile. -/
def chi2invB : ℚ → Nat → ℚ := fun q k => q * k

/-- A chi-square quantile stand-in with two regimes, monotone both in
the quantile and in the degrees of freedom; its values at quantiles
9/10 and 99/100 for 1..4 degrees of freedom are realistic inverse
chi-square values scaled by 10. -/
def chi2invC : ℚ → Nat → ℚ := fun q k =>
  if q ≤ mkRat 9 10 then
    (if k ≤ 1 then 27 else if k = 2 then 46 else if k = 3 then 60 else 70)
  else
    (if k ≤ 1 then 66 else if k = 2 then 92 else if k = 3 then 113 else 132)

/-- One observation, two predictions, all pairs at distance 1. -/
def probC2 : DAProblem :=
  { M := 1, N := 2, O := 1
    indivDist := fun _ _ => some 1
    jointStat := fun _ => none
    predCovPD := fun _ => true }

/-- One observation, one prediction, with the pairwise metric failing
numerically on every pair. -/
def probC4 : DAProblem :=
  { M := 1, N := 1, O := 1
    indivDist := fun _ _ => none
    jointStat := fun _ => none
    predCovPD := fun _ => true }

/-- No observations, two predictions. -/
def probC5 : DAProblem :=
  { M := 0, N := 2, O := 1
    indivDist := fun _ _ => some 1
    jointStat := fun _ => none
    predCovPD := fun _ => true }

/-- One observation, one prediction at distance 1/2. -/
def probC6 : DAProblem :=
  { M := 1, N := 1, O := 1
    indivDist := fun _ _ => some (1 / 2)
    jointStat := fun _ => none
    predCovPD := fun _ => true }

/-- One observation, one prediction at distance 3, with the
independent-stacking joint statistic. -/
def probC7b : DAProblem :=
  { M := 1, N := 1, O := 1
    indivDist := fun _ _ => some 3
    jointStat := indepJointStat (fun _ _ => some 3)
    predCovPD := fun _ => true }

/-- Two observations and two predictions, each observation individually
compatible exactly with its own prediction at squared distance 5. -/
def probC7 : DAProblem :=
  { M := 2, N := 2, O := 1
    indivDist := fun i j =>
      if i = 0 ∧ j = 0 then some 5
      else if i = 1 ∧ j = 1 then some 5 else none
    jointStat := fun _ => none
    predCovPD := fun _ => true }

/-- Four observations and four predictions: pair (0, 0) at distance 50,
pairs (1, 1), (2, 2), (3, 3) at distance 25, every other pair
incompatible. -/
def probC8 : DAProblem :=
  { M := 4, N := 4, O := 1
    indivDist := fun i j =>
      if i = 0 ∧ j = 0 then some 50
      else if i = j ∧ 1 ≤ i ∧ i ≤ 3 then some 25 else none
    jointStat := fun _ => none
    predCovPD := fun _ => true }

theorem buildMatrixD_entry (R C : Nat) (f : Nat → Nat → ℚ) {r c : Nat}
    (hr : r < R) (hc : c < C) :
    (buildMatrixD R C f).entry r c = some (f r c) := by
  simp [buildMatrixD, CMatrixDouble.entry, List.getElem?_map,
    List.getElem?_range hr, List.getElem?_range hc]

theorem buildMatrixB_entry (R C : Nat) (f : Nat → Nat → Bool) {r c : Nat}
    (hr : r < R) (hc : c < C) :
    (buildMatrixB R C f).entry r c = some (f r c) := by
  simp [buildMatrixB, CMatrixBool.entry, List.getElem?_map,
    List.getElem?_range hr, List.getElem?_range hc]

theorem buildMatrixB_entry_bounds (R C : Nat) (f : Nat → Nat → Bool)
    {r c : Nat} {b : Bool} (h : (buildMatrixB R C f).entry r c = some b) :
    r < R ∧ c < C ∧ b = f r c := by
  by_cases hr : r < R
  · by_cases hc : c < C
    · refine ⟨hr, hc, ?_⟩
      rw [buildMatrixB_entry R C f hr hc] at h
      exact (Option.some_inj.mp h).symm
    · exfalso
      have hrow : (List.range C)[c]? = none :=
        List.getElem?_eq_none (by simpa using Nat.le_of_not_lt hc)
      simp [buildMatrixB, CMatrixBool.entry, List.getElem?_map,
        List.getElem?_range hr, hrow] at h
  · exfalso
    have hrow : (List.range R)[r]? = none :=
      List.getElem?_eq_none (by simpa using Nat.le_of_not_lt hr)
    simp [buildMatrixB, CMatrixBool.entry, hrow] at h

/-- qadd is ordinary rational addition. -/
theorem qadd_eq_add (a b : ℚ) : qadd a b = a + b :=
  (Rat.add_def' a b).symm

/-! ### Properties of the up-front covariance validation -/

theorem firstFailedCov_none {N : Nat} {pd : Nat → Bool}
    (h : ∀ j, j < N → pd j = true) : firstFailedCov N pd = none := by
  induction N with
  | zero => rfl
  | succ n ih =>
    have hn : firstFailedCov n pd = none :=
      ih (fun j hj => h j (Nat.lt_succ_of_lt hj))
    simp [firstFailedCov, hn, h n (Nat.lt_succ_self n)]

theorem firstFailedCov_none_inv {N : Nat} {pd : Nat → Bool}
    (h : firstFailedCov N pd = none) : ∀ k, k < N → pd k = true := by
  induction N with
  | zero => intro k hk; exact absurd hk (Nat.not_lt_zero k)
  | succ n ih =>
    rw [firstFailedCov] at h
    cases hfc : firstFailedCov n pd with
    | some j0 => rw [hfc] at h; exact Option.noConfusion h
    | none =>
      rw [hfc] at h
      have hpdn : pd n = true := by
        by_contra hb
        rw [if_neg hb] at h
        exact Option.noConfusion h
      intro k hk
      rcases Nat.lt_succ_iff_lt_or_eq.mp hk with hlt | heq
      · exact ih hfc k hlt
      · rw [heq]; exact hpdn

theorem firstFailedCov_some {N : Nat} {pd : Nat → Bool} {j : Nat}
    (h : firstFailedCov N pd = some j) :
    j < N ∧ pd j = false ∧ ∀ k, k < j → pd k = true := by
  induction N with
  | zero => exact Option.noConfusion h
  | succ n ih =>
    rw [firstFailedCov] at h
    cases hfc : firstFailedCov n pd with
    | some j0 =>
      rw [hfc] at h
      obtain ⟨hlt, hpd, hmin⟩ := ih (hfc.trans (congrArg some (Option.some_inj.mp h)))
      exact ⟨Nat.lt_succ_of_lt hlt, hpd, hmin⟩
    | none =>
      rw [hfc] at h
      by_cases hpdn : pd n = true
      · rw [if_pos hpdn] at h; exact Option.noConfusion h
      · rw [if_neg hpdn] at h
        have hj : j = n := (Option.some_inj.mp h).symm
        subst hj
        refine ⟨Nat.lt_succ_self j, ?_, fun k hk => firstFailedCov_none_inv hfc k hk⟩
        cases hb : pd j
        · rfl
        · exact absurd hb hpdn

/-! ### Inversion of the entry point -/

theorem da_ok_inv {P : DAProblem} {chi2inv : ℚ → Nat → ℚ}
    {method : TDataAssociationMethod} {metric : TDataAssociationMetric}
    {q : ℚ} {ids : List Nat} {jm : TDataAssociationMetric} {thr : ℚ}
    {res : TDataAssociationResults}
    (h : data_association_full_covariance P chi2inv method metric q ids jm thr
      = Except.ok res) :
    res = daPackage P chi2inv method metric q ids jm thr ∧
    (ids.length = 0 ∨ ids.length = P.N) ∧
    firstFailedCov P.N P.predCovPD = none := by
  unfold data_association_full_covariance at h
  by_cases hbad : ids.length ≠ 0 ∧ ids.length ≠ P.N
  · rw [if_pos hbad] at h
    exact Except.noConfusion h
  · rw [if_neg hbad] at h
    have hids : ids.length = 0 ∨ ids.length = P.N := by
      by_cases h0 : ids.length = 0
      · exact Or.inl h0
      · by_cases hN : ids.length = P.N
        · exact Or.inr hN
        · exact absurd ⟨h0, hN⟩ hbad
    cases hfc : firstFailedCov P.N P.predCovPD with
    | some j => rw [hfc] at h; exact Except.noConfusion h
    | none =>
      rw [hfc] at h
      exact ⟨(Except.ok.injEq _ _ |>.mp h).symm, hids, rfl⟩

theorem da_ok_of_valid {P : DAProblem} {chi2inv : ℚ → Nat → ℚ}
    {method : TDataAssociationMethod} {metric : TDataAssociationMetric}
    {q : ℚ} {ids : List Nat} {jm : TDataAssociationMetric} {thr : ℚ}
    (hids : ids.length = 0 ∨ ids.length = P.N)
    (hpd : ∀ j, j < P.N → P.predCovPD j = true) :
    data_association_full_covariance P chi2inv method metric q ids jm thr
      = Except.ok (daPackage P chi2inv method metric q ids jm thr) := by
  unfold data_association_full_covariance
  have hbad : ¬(ids.length ≠ 0 ∧ ids.length ≠ P.N) := by
    rcases hids with h0 | hN
    · intro hc; exact hc.1 h0
    · intro hc; exact hc.2 hN
  rw [if_neg hbad, firstFailedCov_none hpd]

/-! ### Small helpers about packaging -/

theorem remapIDs_nil (ids : List Nat) : remapIDs ids [] = [] := by
  by_cases h : ids.isEmpty <;> simp [remapIDs, h]

theorem remapIDs_length (ids : List Nat) (l : Hyp) :
    (remapIDs ids l).length = l.length := by
  by_cases h : ids.isEmpty <;> simp [remapIDs, h]

/-! ### C5: empty observation or prediction sets -/

/-- C5: with M = 0 or N = 0 and otherwise well-formed inputs (ID table
absent or of length N, all covariance blocks valid), both entry points
succeed with an empty associations map, a zero node count, and distance
and compatibility structures of the corresponding empty sizes. -/
theorem empty_inputs_give_empty_result (P : DAProblem)
    (chi2inv : ℚ → Nat → ℚ) (method : TDataAssociationMethod)
    (metric : TDataAssociationMetric) (q : ℚ) (ids : List Nat)
    (jm : TDataAssociationMetric) (thr : ℚ)
    (hids : ids.length = 0 ∨ ids.length = P.N)
    (hpd : ∀ j, j < P.N → P.predCovPD j = true)
    (hMN : P.M = 0 ∨ P.N = 0) :
    ∃ res, data_association_full_covariance P chi2inv method metric q ids jm thr
        = Except.ok res ∧
      res.associations = [] ∧
      res.nNodesExploredInJCBB = 0 ∧
      res.indiv_distances.rows = P.N ∧ res.indiv_distances.cols = P.M ∧
      res.indiv_compatibility.rows = P.N ∧
      res.indiv_compatibility.cols = P.M ∧
      res.indiv_compatibility_counts.length = P.M := by
  refine ⟨daPackage P chi2inv method metric q ids jm thr,
    da_ok_of_valid hids hpd, ?_, ?_, rfl, rfl, rfl, rfl, ?_⟩
  · simp [daPackage, daRun, if_pos hMN, remapIDs_nil]
  · simp [daPackage, daRun, if_pos hMN]
  · simp [daPackage, buildMatrixB]

/-! ### C4: numerical failures degrade gracefully; only up-front
validation aborts -/

/-- C4: a pairwise metric failure (inversion/Cholesky failure reported
by the collaborator as `none`) marks that pair not compatible in the
result matrix, a joint-statistic failure makes the joint gate reject
that branch, and the query still completes whenever the up-front
validation of the supplied prediction covariance blocks passes; the
query is aborted with NumericalError exactly when that up-front
validation fails, and then the first offending block index is
reported. -/
theorem numerical_failures_graceful (P : DAProblem)
    (chi2inv : ℚ → Nat → ℚ) (method : TDataAssociationMethod)
    (metric : TDataAssociationMetric) (q : ℚ) (ids : List Nat)
    (jm : TDataAssociationMetric) (thr : ℚ)
    (hids : ids.length = 0 ∨ ids.length = P.N) :
    ((∀ j, j < P.N → P.predCovPD j = true) →
      ∃ res, data_association_full_covariance P chi2inv method metric q ids
          jm thr = Except.ok res ∧
        (∀ i j, i < P.M → j < P.N → P.indivDist i j = none →
          res.indiv_compatibility.entry j i = some false) ∧
        (∀ h : Hyp, P.jointStat h = none →
          jointGate P chi2inv jm q thr h = false)) ∧
    (∀ e, data_association_full_covariance P chi2inv method metric q ids jm thr
        = Except.error e →
      ∃ j, e = DAError.numerical j ∧ j < P.N ∧ P.predCovPD j = false ∧
        ∀ k, k < j → P.predCovPD k = true) := by
  constructor
  · intro hpd
    refine ⟨daPackage P chi2inv method metric q ids jm thr,
      da_ok_of_valid hids hpd, ?_, ?_⟩
    · intro i j hi hj hnone
      have : indivCompat P chi2inv metric q thr i j = false := by
        simp [indivCompat, hnone]
      simpa [daPackage, this] using
        buildMatrixB_entry P.N P.M
          (fun j2 i2 => indivCompat P chi2inv metric q thr i2 j2) hj hi
    · intro h hnone
      simp [jointGate, hnone]
  · intro e herr
    unfold data_association_full_covariance at herr
    have hbad : ¬(ids.length ≠ 0 ∧ ids.length ≠ P.N) := by
      rcases hids with h0 | hN
      · intro hc; exact hc.1 h0
      · intro hc; exact hc.2 hN
    rw [if_neg hbad] at herr
    cases hfc : firstFailedCov P.N P.predCovPD with
    | some j =>
      rw [hfc] at herr
      obtain ⟨hlt, hpdj, hmin⟩ := firstFailedCov_some hfc
      exact ⟨j, (Except.error.injEq _ _ |>.mp herr).symm, hlt, hpdj, hmin⟩
    | none => rw [hfc] at herr; exact Except.noConfusion herr

/-! ### C2: shape and contents of the result matrices -/

/-- C2 (amended): for every successful query, the distance and
compatibility matrices are N x M — the prediction index is the row
index and the observation index the column index, as documented on
TDataAssociationResults::indiv_distances — the counts vector has length
M, entry (j, i) holds the metric value (resp. individual compatibility)
of observation i against prediction j, and the i-th count is the number
of true entries in column i of the compatibility matrix, that is, the
number of predictions individually compatible with observation i. -/
theorem result_matrix_shapes {P : DAProblem} {chi2inv : ℚ → Nat → ℚ}
    {method : TDataAssociationMethod} {metric : TDataAssociationMetric}
    {q : ℚ} {ids : List Nat} {jm : TDataAssociationMetric} {thr : ℚ}
    {res : TDataAssociationResults}
    (hok : data_association_full_covariance P chi2inv method metric q ids jm
      thr = Except.ok res) :
    res.indiv_distances.rows = P.N ∧ res.indiv_distances.cols = P.M ∧
    res.indiv_compatibility.rows = P.N ∧ res.indiv_compatibility.cols = P.M ∧
    res.indiv_compatibility_counts.length = P.M ∧
    (∀ i j, i < P.M → j < P.N →
      res.indiv_distances.entry j i = some ((P.indivDist i j).getD 0) ∧
      res.indiv_compatibility.entry j i
        = some (indivCompat P chi2inv metric q thr i j)) ∧
    (∀ i, i < P.M →
      res.indiv_compatibility_counts[i]? =
        some (((List.range P.N).filter
          (fun j => res.indiv_compatibility.entry j i = some true)).length)) := by
  obtain ⟨hres, -, -⟩ := da_ok_inv hok
  subst hres
  refine ⟨rfl, rfl, rfl, rfl, by simp [daPackage, buildMatrixB], ?_, ?_⟩
  · intro i j hi hj
    constructor
    · exact buildMatrixD_entry P.N P.M _ hj hi
    · exact buildMatrixB_entry P.N P.M _ hj hi
  · intro i hi
    have hentry : ∀ j ∈ List.range P.N,
        (decide ((daPackage P chi2inv method metric q ids jm
            thr).indiv_compatibility.entry j i = some true))
          = indivCompat P chi2inv metric q thr i j := by
      intro j hj
      have hj2 : j < P.N := List.mem_range.mp hj
      have := buildMatrixB_entry P.N P.M
        (fun j2 i2 => indivCompat P chi2inv metric q thr i2 j2) hj2 hi
      by_cases hc : indivCompat P chi2inv metric q thr i j = true
      · simp [daPackage, this, hc]
      · have hc2 : indivCompat P chi2inv metric q thr i j = false := by
          cases hb : indivCompat P chi2inv metric q thr i j
          · rfl
          · exact absurd hb hc
        simp [daPackage, this, hc2]
    have hfilter :
        (List.range P.N).filter
            (fun j => decide ((daPackage P chi2inv method metric q ids jm
              thr).indiv_compatibility.entry j i = some true))
          = (List.range P.N).filter
            (fun j => indivCompat P chi2inv metric q thr i j) := by
      exact List.filter_congr hentry
    show ((List.range P.M).map
        (fun i2 => ((List.range P.N).filter
          (fun j => indivCompat P chi2inv metric q thr i2 j)).length))[i]? = _
    rw [List.getElem?_map, List.getElem?_range hi, Option.map_some', hfilter]

/-! ### C6: individual compatibility is monotone in the chi-square
quantile -/

/-- C6: with the chi-square inverse quantile function monotone in its
quantile argument (as the true chi2inv is), fixed inputs and metric, and
two quantiles 0 < q1 ≤ q2 < 1, every pair individually compatible at q1
is individually compatible at q2; hence the compatibility matrix at q2
dominates the one at q1 entrywise. -/
theorem indiv_compat_monotone_quantile {P : DAProblem}
    {chi2inv : ℚ → Nat → ℚ} {method : TDataAssociationMethod}
    {metric : TDataAssociationMetric} {q1 q2 : ℚ} {ids : List Nat}
    {jm : TDataAssociationMetric} {thr : ℚ}
    {res1 res2 : TDataAssociationResults}
    (hmono : ∀ d q1 q2, q1 ≤ q2 → chi2inv q1 d ≤ chi2inv q2 d)
    (_hq1 : 0 < q1) (h12 : q1 ≤ q2) (_hq2 : q2 < 1)
    (h1 : data_association_full_covariance P chi2inv method metric q1 ids jm
      thr = Except.ok res1)
    (h2 : data_association_full_covariance P chi2inv method metric q2 ids jm
      thr = Except.ok res2) :
    ∀ j i, res1.indiv_compatibility.entry j i = some true →
      res2.indiv_compatibility.entry j i = some true := by
  obtain ⟨hres1, -, -⟩ := da_ok_inv h1
  obtain ⟨hres2, -, -⟩ := da_ok_inv h2
  subst hres1; subst hres2
  intro j i hentry
  have hb := buildMatrixB_entry_bounds P.N P.M
    (fun j2 i2 => indivCompat P chi2inv metric q1 thr i2 j2)
    (by simpa [daPackage] using hentry)
  obtain ⟨hj, hi, hcomp⟩ := hb
  have hcompat1 : indivCompat P chi2inv metric q1 thr i j = true := hcomp.symm
  have hcompat2 : indivCompat P chi2inv metric q2 thr i j = true := by
    unfold indivCompat at hcompat1 ⊢
    cases hd : P.indivDist i j with
    | none => rw [hd] at hcompat1; exact Bool.noConfusion hcompat1
    | some d =>
      rw [hd] at hcompat1
      unfold metricGate at hcompat1 ⊢
      cases metric with
      | metricMaha =>
        have hle : d ≤ chi2inv q1 P.O := of_decide_eq_true hcompat1
        exact decide_eq_true_eq.mpr (le_trans hle (hmono P.O q1 q2 h12))
      | metricML => exact hcompat1
  have := buildMatrixB_entry P.N P.M
    (fun j2 i2 => indivCompat P chi2inv metric q2 thr i2 j2) hj hi
  simpa [daPackage, hcompat2] using this

/-- C2 counterexample: at a query with M = 1 observation and N = 2
predictions, the result matrices are 2 x 1, not 1 x 2: the claimed
orientation (observations as rows) does not hold; predictions index the
rows, as documented in data_association.h. -/
theorem result_matrix_shapes_cex :
    probC2.M = 1 ∧ probC2.N = 2 ∧
    (resOf (data_association_full_covariance probC2 chi2invA
      TDataAssociationMethod.assocNN metricMaha (99 / 100) [] metricMaha
      0)).indiv_distances.rows = 2 ∧
    (resOf (data_association_full_covariance probC2 chi2invA
      TDataAssociationMethod.assocNN metricMaha (99 / 100) [] metricMaha
      0)).indiv_distances.cols = 1 ∧
    ¬ ((resOf (data_association_full_covariance probC2 chi2invA
        TDataAssociationMethod.assocNN metricMaha (99 / 100) [] metricMaha
        0)).indiv_distances.rows = probC2.M) := by
  refine ⟨rfl, rfl, rfl, rfl, ?_⟩
  decide

/-- C2 witness: the amended shape theorem applied to the concrete
query with M = 1, N = 2. -/
theorem result_matrix_shapes_witness :
    (daPackage probC2 chi2invA TDataAssociationMethod.assocNN metricMaha
      (99 / 100) [] metricMaha 0).indiv_distances.rows = probC2.N ∧
    (daPackage probC2 chi2invA TDataAssociationMethod.assocNN metricMaha
      (99 / 100) [] metricMaha 0).indiv_distances.cols = probC2.M ∧
    (daPackage probC2 chi2invA TDataAssociationMethod.assocNN metricMaha
      (99 / 100) [] metricMaha 0).indiv_compatibility_counts.length
      = probC2.M := by
  have h := result_matrix_shapes
    (@da_ok_of_valid probC2 chi2invA TDataAssociationMethod.assocNN
      metricMaha (99 / 100) [] metricMaha 0 (Or.inl rfl) (fun _ _ => rfl))
  exact ⟨h.1, h.2.1, h.2.2.2.2.1⟩

/-- C4 witness: the graceful-degradation theorem applied to a query
whose only pair fails numerically; the query succeeds and the pair is
reported not compatible. -/
theorem numerical_failures_graceful_witness :
    ∃ res, data_association_full_covariance probC4 chi2invA
        TDataAssociationMethod.assocJCBB metricMaha (99 / 100) [] metricMaha 0
        = Except.ok res ∧
      (∀ i j, i < probC4.M → j < probC4.N → probC4.indivDist i j = none →
        res.indiv_compatibility.entry j i = some false) ∧
      (∀ h : Hyp, probC4.jointStat h = none →
        jointGate probC4 chi2invA metricMaha (99 / 100) 0 h = false) :=
  (numerical_failures_graceful probC4 chi2invA
    TDataAssociationMethod.assocJCBB metricMaha (99 / 100) [] metricMaha 0
    (Or.inl rfl)).1 (fun _ _ => rfl)

/-- C5 witness: the empty-query theorem applied to a concrete query
with M = 0 and N = 2. -/
theorem empty_inputs_give_empty_result_witness :
    ∃ res, data_association_full_covariance probC5 chi2invA
        TDataAssociationMethod.assocJCBB metricMaha (99 / 100) [] metricMaha 0
        = Except.ok res ∧
      res.associations = [] ∧
      res.nNodesExploredInJCBB = 0 ∧
      res.indiv_distances.rows = probC5.N ∧
      res.indiv_distances.cols = probC5.M ∧
      res.indiv_compatibility.rows = probC5.N ∧
      res.indiv_compatibility.cols = probC5.M ∧
      res.indiv_compatibility_counts.length = probC5.M :=
  empty_inputs_give_empty_result probC5 chi2invA
    TDataAssociationMethod.assocJCBB metricMaha (99 / 100) [] metricMaha 0
    (Or.inl rfl) (fun _ _ => rfl) (Or.inl rfl)

/-- C6 witness: the monotonicity theorem applied to a concrete query at
quantiles 3/4 and 9/10, at the pair (0, 0) compatible at the lower
quantile. -/
theorem indiv_compat_monotone_quantile_witness :
    (daPackage probC6 chi2invB TDataAssociationMethod.assocNN metricMaha
      (9 / 10) [] metricMaha 0).indiv_compatibility.entry 0 0
      = some true := by
  have hmono : ∀ (d : Nat) (q1 q2 : ℚ), q1 ≤ q2 →
      chi2invB q1 d ≤ chi2invB q2 d := by
    intro d q1 q2 h
    exact mul_le_mul_of_nonneg_right h (Nat.cast_nonneg d)
  refine @indiv_compat_monotone_quantile probC6 chi2invB
    TDataAssociationMethod.assocNN metricMaha (3 / 4) (9 / 10) [] metricMaha 0
    (daPackage probC6 chi2invB TDataAssociationMethod.assocNN metricMaha
      (3 / 4) [] metricMaha 0)
    (daPackage probC6 chi2invB TDataAssociationMethod.assocNN metricMaha
      (9 / 10) [] metricMaha 0)
    hmono (by norm_num) (by norm_num) (by norm_num)
    (@da_ok_of_valid probC6 chi2invB TDataAssociationMethod.assocNN
      metricMaha (3 / 4) [] metricMaha 0 (Or.inl rfl) (fun _ _ => rfl))
    (@da_ok_of_valid probC6 chi2invB TDataAssociationMethod.assocNN
      metricMaha (9 / 10) [] metricMaha 0 (Or.inl rfl) (fun _ _ => rfl))
    0 0 ?_
  have h := buildMatrixB_entry probC6.N probC6.M
    (fun j2 i2 => indivCompat probC6 chi2invB metricMaha (3 / 4) 0 i2 j2)
    (Nat.zero_lt_one) (Nat.zero_lt_one)
  have hc : indivCompat probC6 chi2invB metricMaha (3 / 4) 0 0 0 = true := by
    simp [indivCompat, probC6, metricGate, chi2invB]
    norm_num
  simpa [daPackage, hc] using h

/-! ### Structural lemmas about the JCBB search -/

section JCBBLemmas

variable {P : DAProblem} {chi2inv : ℚ → Nat → ℚ}
variable {metric jm : TDataAssociationMetric} {q thrML : ℚ}

theorem betterHyp_true_length {h best : Hyp}
    (hb : betterHyp P metric h best = true) : best.length ≤ h.length := by
  unfold betterHyp at hb
  by_cases h1 : best.length < h.length
  · exact Nat.le_of_lt h1
  · rw [if_neg h1] at hb
    by_cases h2 : h.length = best.length
    · exact Nat.le_of_eq h2.symm
    · rw [if_neg h2] at hb
      exact Bool.noConfusion hb

theorem betterHyp_false_length {h best : Hyp}
    (hb : betterHyp P metric h best = false) : h.length ≤ best.length := by
  unfold betterHyp at hb
  by_cases h1 : best.length < h.length
  · rw [if_pos h1] at hb
    exact Bool.noConfusion hb
  · exact Nat.le_of_not_lt h1

theorem foldl_jcbbStep_fst_le
    (child : Nat → Hyp → Hyp → Nat → Hyp × Nat)
    (hchild : ∀ i2 h2 b2 c2, b2.length ≤ (child i2 h2 b2 c2).1.length)
    (r i : Nat) (h : Hyp) :
    ∀ (l : List Nat) (acc : Hyp × Nat),
      acc.1.length ≤
        (l.foldl (jcbbStep P chi2inv metric jm q thrML child r i h)
          acc).1.length := by
  intro l
  induction l with
  | nil => intro acc; exact Nat.le_refl _
  | cons j js ih =>
    intro acc
    rw [List.foldl_cons]
    refine Nat.le_trans ?_ (ih _)
    unfold jcbbStep
    split
    · exact hchild _ _ _ _
    · exact Nat.le_refl _

theorem jcbbGo_fst_le (r : Nat) : ∀ (i : Nat) (h best : Hyp) (cnt : Nat),
    best.length
      ≤ (jcbbGo P chi2inv metric jm q thrML r i h best cnt).1.length ∧
    h.length
      ≤ (jcbbGo P chi2inv metric jm q thrML r i h best cnt).1.length := by
  induction r with
  | zero =>
    intro i h best cnt
    simp only [jcbbGo]
    by_cases hb : betterHyp P metric h best = true
    · rw [if_pos hb]
      exact ⟨betterHyp_true_length hb, Nat.le_refl _⟩
    · have hb2 : betterHyp P metric h best = false := by
        cases hx : betterHyp P metric h best
        · rfl
        · exact absurd hx hb
      rw [if_neg hb]
      exact ⟨Nat.le_refl _, betterHyp_false_length hb2⟩
  | succ r ih =>
    intro i h best cnt
    simp only [jcbbGo]
    have hfold := @foldl_jcbbStep_fst_le P chi2inv metric jm q thrML
      (jcbbGo P chi2inv metric jm q thrML r)
      (fun i2 h2 b2 c2 => (ih i2 h2 b2 c2).1) r i h
      (List.range P.N) (best, cnt + 1)
    split
    · next hlt =>
      constructor
      · exact Nat.le_trans (Nat.le_trans hfold (Nat.le_refl _))
          ((ih _ _ _ _).1)
      · exact (ih _ _ _ _).2
    · next hge =>
      constructor
      · exact hfold
      · have := Nat.le_of_not_lt hge
        exact Nat.le_trans (Nat.le_add_right h.length r) this

theorem extChainOK_length {r i : Nat} {h ext : Hyp}
    (hext : extChainOK P chi2inv metric jm q thrML r i h ext = true) :
    ext.length ≤ r := by
  induction r generalizing i h ext with
  | zero =>
    rw [extChainOK] at hext
    rw [List.isEmpty_iff.mp hext]
    exact Nat.le_refl 0
  | succ r ih =>
    cases ext with
    | nil => exact Nat.zero_le _
    | cons p rest =>
      obtain ⟨o, j⟩ := p
      rw [extChainOK] at hext
      by_cases ho : o = i
      · rw [if_pos ho] at hext
        simp only [Bool.and_eq_true] at hext
        have := ih hext.2
        simpa using Nat.succ_le_succ this
      · rw [if_neg ho] at hext
        simp only [Bool.and_eq_true] at hext
        exact Nat.le_succ_of_le (ih hext.2)

theorem foldl_jcbbStep_reach
    (child : Nat → Hyp → Hyp → Nat → Hyp × Nat)
    (hchild : ∀ i2 h2 b2 c2, b2.length ≤ (child i2 h2 b2 c2).1.length)
    (r i : Nat) (h : Hyp) (T jstar : Nat)
    (hstep : ∀ acc : Hyp × Nat,
      T ≤ (jcbbStep P chi2inv metric jm q thrML child r i h acc jstar).1.length) :
    ∀ (l : List Nat) (acc : Hyp × Nat), jstar ∈ l →
      T ≤ (l.foldl (jcbbStep P chi2inv metric jm q thrML child r i h)
        acc).1.length := by
  intro l
  induction l with
  | nil => intro acc hmem; exact absurd hmem (List.not_mem_nil jstar)
  | cons j js ih =>
    intro acc hmem
    rw [List.foldl_cons]
    by_cases hj : j = jstar
    · subst hj
      exact Nat.le_trans (hstep acc)
        (foldl_jcbbStep_fst_le child hchild r i h js _)
    · have hmem2 : jstar ∈ js := by
        cases List.mem_cons.mp hmem with
        | inl heq => exact absurd heq.symm hj
        | inr hin => exact hin
      exact ih _ hmem2

/-- The JCBB search result is at least as large as any gate-feasible
extension chain of the current partial hypothesis: the branch-and-bound
never discards a reachable cardinality without having an incumbent at
least as large. -/
theorem jcbbGo_ge_chain (r : Nat) :
    ∀ (i : Nat) (h best : Hyp) (cnt : Nat) (ext : Hyp),
      extChainOK P chi2inv metric jm q thrML r i h ext = true →
      h.length + ext.length
        ≤ (jcbbGo P chi2inv metric jm q thrML r i h best cnt).1.length := by
  induction r with
  | zero =>
    intro i h best cnt ext hext
    rw [extChainOK] at hext
    rw [List.isEmpty_iff.mp hext]
    simpa using (jcbbGo_fst_le 0 i h best cnt).2
  | succ r ih =>
    intro i h best cnt ext hext
    cases ext with
    | nil => simpa using (jcbbGo_fst_le (r + 1) i h best cnt).2
    | cons p rest =>
      obtain ⟨o, j⟩ := p
      rw [extChainOK] at hext
      by_cases ho : o = i
      · rw [if_pos ho] at hext
        simp only [Bool.and_eq_true, Bool.not_eq_true', decide_eq_true_eq]
          at hext
        obtain ⟨⟨⟨⟨hclaim, hjN⟩, hcompat⟩, hgate⟩, hrest⟩ := hext
        have hT : ∀ acc : Hyp × Nat,
            h.length + (rest.length + 1) ≤
              (jcbbStep P chi2inv metric jm q thrML
                (jcbbGo P chi2inv metric jm q thrML r) r i h acc j).1.length := by
          intro acc
          unfold jcbbStep
          split
          · next hcond =>
            have := ih (i + 1) ((i, j) :: h) acc.1 acc.2 rest hrest
            simp only [List.length_cons] at this
            calc h.length + (rest.length + 1)
                = h.length + 1 + rest.length := by omega
              _ ≤ _ := this
          · next hcond =>
            have hbound : ¬ (acc.1.length < h.length + 1 + r) := by
              intro hb
              exact hcond ⟨hclaim, hcompat, hgate, hb⟩
            have hrl : rest.length ≤ r := extChainOK_length hrest
            have := Nat.le_of_not_lt hbound
            omega
        simp only [jcbbGo]
        have hfr := foldl_jcbbStep_reach
          (jcbbGo P chi2inv metric jm q thrML r)
          (fun i2 h2 b2 c2 => (jcbbGo_fst_le r i2 h2 b2 c2).1)
          r i h (h.length + (rest.length + 1)) j hT
          (List.range P.N) (best, cnt + 1) (List.mem_range.mpr hjN)
        split
        · next hlt =>
          calc h.length + (rest.length + 1) ≤ _ := hfr
            _ ≤ _ := (jcbbGo_fst_le r (i + 1) h _ _).1
        · next hge => simpa using hfr
      · rw [if_neg ho] at hext
        simp only [Bool.and_eq_true, decide_eq_true_eq] at hext
        obtain ⟨hio, hrest⟩ := hext
        have hrl : ((o, j) :: rest).length ≤ r := extChainOK_length hrest
        simp only [jcbbGo]
        split
        · next hlt =>
          exact ih (i + 1) h _ _ ((o, j) :: rest) hrest
        · next hge =>
          have := Nat.le_of_not_lt hge
          simp only [List.length_cons] at hrl ⊢
          omega

end JCBBLemmas

/-! ### The node-budget function -/

theorem Bnd_pos (N r S : Nat) : 1 ≤ Bnd N r S := by
  cases r with
  | zero => exact Nat.le_refl 1
  | succ r =>
    rw [Bnd]
    split
    · exact Nat.le_refl 1
    · omega

theorem Bnd_mono (N r : Nat) : ∀ {S1 S2 : Nat}, S1 ≤ S2 →
    Bnd N r S1 ≤ Bnd N r S2 := by
  induction r with
  | zero => intro S1 S2 _; exact Nat.le_refl 1
  | succ r ih =>
    intro S1 S2 h12
    by_cases h1 : S1 = 0
    · rw [Bnd, if_pos h1]
      exact Bnd_pos N (r + 1) S2
    · have h2 : ¬ S2 = 0 := by omega
      rw [Bnd, Bnd, if_neg h1, if_neg h2]
      have hm1 : min S1 r ≤ min S2 r := by omega
      have hm2 : min (S1 - 1) (r - 1) ≤ min (S2 - 1) (r - 1) := by omega
      have t1 : Bnd N r S1 ≤ Bnd N r S2 := ih h12
      have t2 : (if 1 ≤ min S1 r then (N - 1) * Bnd N r (min S1 r) else 0)
          ≤ (if 1 ≤ min S2 r then (N - 1) * Bnd N r (min S2 r) else 0) := by
        by_cases hg : 1 ≤ min S1 r
        · rw [if_pos hg, if_pos (Nat.le_trans hg hm1)]
          exact Nat.mul_le_mul_left _ (ih hm1)
        · rw [if_neg hg]
          exact Nat.zero_le _
      have t3 : (if 2 ≤ min S1 r
            then Bnd N r (min (S1 - 1) (r - 1)) else 0)
          ≤ (if 2 ≤ min S2 r
            then Bnd N r (min (S2 - 1) (r - 1)) else 0) := by
        by_cases hg : 2 ≤ min S1 r
        · rw [if_pos hg, if_pos (Nat.le_trans hg hm1)]
          exact ih hm2
        · rw [if_neg hg]
          exact Nat.zero_le _
      omega

theorem Bnd_one (N : Nat) (S : Nat) (hS : 1 ≤ S) : Bnd N 1 S = 2 := by
  rw [Bnd]
  have : ¬ S = 0 := by omega
  rw [if_neg this]
  simp [Bnd]

theorem Bnd_add_pow_le {N : Nat} (hN : 1 ≤ N) :
    ∀ r, 2 ≤ r → ∀ S, Bnd N r S + N ^ r ≤ (N + 1) ^ r := by
  intro r
  induction r with
  | zero => intro h; omega
  | succ r ih =>
    intro hr S
    by_cases hr2 : 2 ≤ r
    · -- inductive step from r to r + 1
      have hA := ih hr2 S
      have hB := ih hr2 (min S r)
      have hC := ih hr2 (min (S - 1) (r - 1))
      set T := (N + 1) ^ r with hT
      set x := N ^ r with hx
      have hx1 : 1 ≤ x := Nat.one_le_iff_ne_zero.mpr (pow_ne_zero r (by omega))
      have hmulB : (N - 1) * Bnd N r (min S r) + (N - 1) * x ≤ (N - 1) * T := by
        rw [← Nat.mul_add]
        exact Nat.mul_le_mul_left _ hB
      have hpow1 : (N + 1) ^ (r + 1) = (N + 1) * T := by
        rw [hT, pow_succ]
        ring
      have hpow2 : N ^ (r + 1) = N * x := by
        rw [hx, pow_succ]
        ring
      have hBnd : Bnd N (r + 1) S ≤ 1 + Bnd N r S
          + (N - 1) * Bnd N r (min S r) + Bnd N r (min (S - 1) (r - 1)) := by
        rw [Bnd]
        split
        · have := Bnd_pos N r S
          have := Bnd_pos N r (min (S - 1) (r - 1))
          omega
        · have t2 : (if 1 ≤ min S r then (N - 1) * Bnd N r (min S r) else 0)
              ≤ (N - 1) * Bnd N r (min S r) := by
            split
            · exact Nat.le_refl _
            · exact Nat.zero_le _
          have t3 : (if 2 ≤ min S r
                then Bnd N r (min (S - 1) (r - 1)) else 0)
              ≤ Bnd N r (min (S - 1) (r - 1)) := by
            split
            · exact Nat.le_refl _
            · exact Nat.zero_le _
          omega
      have hNmul : (N - 1) * x + x = N * x := by
        have : (N - 1) + 1 = N := by omega
        calc (N - 1) * x + x = ((N - 1) + 1) * x := by ring
          _ = N * x := by rw [this]
      have hNT : (N - 1) * T + T = N * T := by
        have : (N - 1) + 1 = N := by omega
        calc (N - 1) * T + T = ((N - 1) + 1) * T := by ring
          _ = N * T := by rw [this]
      have hNT2 : N * T + T = (N + 1) * T := by ring
      rw [hpow1, hpow2]
      omega
    · -- base: r + 1 = 2
      have hr1 : r = 1 := by omega
      subst hr1
      obtain ⟨m, rfl⟩ : ∃ m, N = m + 1 := ⟨N - 1, by omega⟩
      have h1 : (m + 1 + 1) ^ (1 + 1) = (m + 1) ^ (1 + 1) + 2 * (m + 1) + 1 := by
        ring
      by_cases hS : S = 0
      · rw [Bnd, if_pos hS]
        linarith
      · rw [Bnd, if_neg hS]
        have hmin : min S 1 = 1 := by omega
        rw [hmin]
        rw [Bnd_one (m + 1) S (by omega), Bnd_one (m + 1) 1 (Nat.le_refl 1)]
        simp only [if_pos (Nat.le_refl 1)]
        have hg : ¬ (2 ≤ 1) := by omega
        rw [if_neg hg]
        have hm : m + 1 - 1 = m := by omega
        rw [hm]
        linarith

theorem Bnd_diag_le_pow {N M : Nat} (hN : 1 ≤ N) (hM : 1 ≤ M) :
    Bnd N M M ≤ (N + 1) ^ M := by
  by_cases h2 : 2 ≤ M
  · have := Bnd_add_pow_le hN M h2 M
    omega
  · have hM1 : M = 1 := by omega
    subst hM1
    rw [Bnd_one N 1 (Nat.le_refl 1)]
    have : (N + 1) ^ 1 = N + 1 := pow_one _
    omega

/-! ### Counting the JCBB recursive calls -/

section JCBBCount

variable {P : DAProblem} {chi2inv : ℚ → Nat → ℚ}
variable {metric jm : TDataAssociationMetric} {q thrML : ℚ}

theorem foldl_jcbbStep_stuck
    (child : Nat → Hyp → Hyp → Nat → Hyp × Nat) (r i : Nat) (h : Hyp) :
    ∀ (l : List Nat) (acc : Hyp × Nat), h.length + 1 + r ≤ acc.1.length →
      l.foldl (jcbbStep P chi2inv metric jm q thrML child r i h) acc = acc := by
  intro l
  induction l with
  | nil => intro acc _; rfl
  | cons j js ih =>
    intro acc hacc
    rw [List.foldl_cons]
    have hstep : jcbbStep P chi2inv metric jm q thrML child r i h acc j
        = acc := by
      unfold jcbbStep
      rw [if_neg]
      intro hcond
      have := hcond.2.2.2
      omega
    rw [hstep]
    exact ih acc hacc

theorem foldl_jcbbStep_acc_cases
    (child : Nat → Hyp → Hyp → Nat → Hyp × Nat)
    (hA1 : ∀ i2 h2 b2 c2, b2.length ≤ (child i2 h2 b2 c2).1.length)
    (hA2 : ∀ i2 h2 b2 c2, h2.length ≤ (child i2 h2 b2 c2).1.length)
    (r i : Nat) (h : Hyp) :
    ∀ (l : List Nat) (acc : Hyp × Nat),
      l.foldl (jcbbStep P chi2inv metric jm q thrML child r i h) acc = acc ∨
      h.length + 1
        ≤ (l.foldl (jcbbStep P chi2inv metric jm q thrML child r i h)
            acc).1.length := by
  intro l
  induction l with
  | nil => intro acc; exact Or.inl rfl
  | cons j js ih =>
    intro acc
    rw [List.foldl_cons]
    by_cases hc : ((h.map Prod.snd).contains j = false ∧
        indivCompat P chi2inv metric q thrML i j = true ∧
        jointGate P chi2inv jm q thrML ((i, j) :: h) = true ∧
        acc.1.length < h.length + 1 + r)
    · have hstep : jcbbStep P chi2inv metric jm q thrML child r i h acc j
          = child (i + 1) ((i, j) :: h) acc.1 acc.2 := by
        unfold jcbbStep
        rw [if_pos hc]
      rw [hstep]
      refine Or.inr ?_
      have h1 : h.length + 1 ≤ (child (i + 1) ((i, j) :: h) acc.1 acc.2).1.length := by
        have := hA2 (i + 1) ((i, j) :: h) acc.1 acc.2
        simpa using this
      exact Nat.le_trans h1 (foldl_jcbbStep_fst_le child hA1 r i h js _)
    · have hstep : jcbbStep P chi2inv metric jm q thrML child r i h acc j
          = acc := by
        unfold jcbbStep
        rw [if_neg hc]
      rw [hstep]
      exact ih acc

theorem foldl_jcbbStep_cnt
    (child : Nat → Hyp → Hyp → Nat → Hyp × Nat)
    (hA1 : ∀ i2 h2 b2 c2, b2.length ≤ (child i2 h2 b2 c2).1.length)
    (hA2 : ∀ i2 h2 b2 c2, h2.length ≤ (child i2 h2 b2 c2).1.length)
    (r : Nat)
    (hCnt : ∀ i2 h2 b2 c2, (child i2 h2 b2 c2).2
      ≤ c2 + Bnd P.N r ((h2.length + r) - b2.length))
    (i : Nat) (h : Hyp) (b0 : Hyp) (S0 mid : Nat)
    (hS0 : S0 = (h.length + 1 + r) - b0.length)
    (hmid : mid = if 1 ≤ min S0 r then Bnd P.N r (min S0 r) else 0) :
    ∀ (l : List Nat) (acc : Hyp × Nat), b0.length ≤ acc.1.length →
      (l.foldl (jcbbStep P chi2inv metric jm q thrML child r i h) acc).2
        ≤ acc.2
          + (if acc.1.length < h.length + 1 then Bnd P.N r S0 - mid else 0)
          + l.length * mid := by
  have hmidle : mid ≤ Bnd P.N r S0 := by
    rw [hmid]
    split
    · exact Bnd_mono P.N r (Nat.min_le_left S0 r)
    · exact Nat.zero_le _
  intro l
  induction l with
  | nil =>
    intro acc hb0
    simp only [List.foldl_nil, List.length_nil, Nat.zero_mul]
    by_cases hf : acc.1.length < h.length + 1
    · rw [if_pos hf]; omega
    · rw [if_neg hf]; omega
  | cons j js ih =>
    intro acc hb0
    rw [List.foldl_cons]
    by_cases hc : ((h.map Prod.snd).contains j = false ∧
        indivCompat P chi2inv metric q thrML i j = true ∧
        jointGate P chi2inv jm q thrML ((i, j) :: h) = true ∧
        acc.1.length < h.length + 1 + r)
    · have hstep : jcbbStep P chi2inv metric jm q thrML child r i h acc j
          = child (i + 1) ((i, j) :: h) acc.1 acc.2 := by
        unfold jcbbStep
        rw [if_pos hc]
      rw [hstep]
      have hb0' : b0.length ≤ (child (i + 1) ((i, j) :: h) acc.1 acc.2).1.length :=
        Nat.le_trans hb0 (hA1 _ _ _ _)
      have hnotfresh2 :
          ¬ ((child (i + 1) ((i, j) :: h) acc.1 acc.2).1.length
            < h.length + 1) := by
        have := hA2 (i + 1) ((i, j) :: h) acc.1 acc.2
        simp only [List.length_cons] at this
        omega
      have hrest := ih (child (i + 1) ((i, j) :: h) acc.1 acc.2) hb0'
      rw [if_neg hnotfresh2] at hrest
      have hccost : (child (i + 1) ((i, j) :: h) acc.1 acc.2).2
          ≤ acc.2 + Bnd P.N r ((h.length + 1 + r) - acc.1.length) := by
        have := hCnt (i + 1) ((i, j) :: h) acc.1 acc.2
        simpa using this
      have hScS0 : (h.length + 1 + r) - acc.1.length ≤ S0 := by omega
      have hmul : (js.length + 1) * mid = js.length * mid + mid := by ring
      by_cases hf : acc.1.length < h.length + 1
      · have hcost2 : Bnd P.N r ((h.length + 1 + r) - acc.1.length)
            ≤ Bnd P.N r S0 := Bnd_mono P.N r hScS0
        rw [if_pos hf]
        simp only [List.length_cons]
        omega
      · have hr1 : 1 ≤ (h.length + 1 + r) - acc.1.length := by
          have := hc.2.2.2
          omega
        have hrle : (h.length + 1 + r) - acc.1.length ≤ r := by omega
        have hminpos : 1 ≤ min S0 r := by omega
        have hmid2 : mid = Bnd P.N r (min S0 r) := by rw [hmid, if_pos hminpos]
        have hcost2 : Bnd P.N r ((h.length + 1 + r) - acc.1.length) ≤ mid := by
          rw [hmid2]
          exact Bnd_mono P.N r (by omega)
        rw [if_neg hf]
        simp only [List.length_cons]
        omega
    · have hstep : jcbbStep P chi2inv metric jm q thrML child r i h acc j
          = acc := by
        unfold jcbbStep
        rw [if_neg hc]
      rw [hstep]
      have hrest := ih acc hb0
      have hmul : (js.length + 1) * mid = js.length * mid + mid := by ring
      simp only [List.length_cons]
      by_cases hf : acc.1.length < h.length + 1
      · rw [if_pos hf] at hrest ⊢
        omega
      · rw [if_neg hf] at hrest ⊢
        omega

/-- The number of recursive calls of a JCBB node is bounded by the
budget function at the node's fuel and slack. -/
theorem jcbbGo_cnt (r : Nat) : ∀ (i : Nat) (h best : Hyp) (cnt : Nat),
    (jcbbGo P chi2inv metric jm q thrML r i h best cnt).2
      ≤ cnt + Bnd P.N r ((h.length + r) - best.length) := by
  induction r with
  | zero =>
    intro i h best cnt
    simp only [jcbbGo]
    exact Nat.le_refl _
  | succ r ih =>
    intro i h best cnt
    have hA1 : ∀ i2 h2 b2 c2, b2.length
        ≤ (jcbbGo P chi2inv metric jm q thrML r i2 h2 b2 c2).1.length :=
      fun i2 h2 b2 c2 => (jcbbGo_fst_le r i2 h2 b2 c2).1
    have hA2 : ∀ i2 h2 b2 c2, h2.length
        ≤ (jcbbGo P chi2inv metric jm q thrML r i2 h2 b2 c2).1.length :=
      fun i2 h2 b2 c2 => (jcbbGo_fst_le r i2 h2 b2 c2).2
    simp only [jcbbGo]
    by_cases hS : (h.length + (r + 1)) - best.length = 0
    · -- the incumbent already dominates every extension: nothing runs
      have hstuck := @foldl_jcbbStep_stuck P chi2inv metric jm q thrML
        (jcbbGo P chi2inv metric jm q thrML r) r i h
        (List.range P.N) (best, cnt + 1)
        (by show h.length + 1 + r ≤ best.length; omega)
      rw [hstuck]
      have hskip : ¬ ((best, cnt + 1).1.length < h.length + r) := by
        show ¬ (best.length < h.length + r)
        omega
      rw [if_neg hskip]
      rw [Bnd, if_pos hS]
    · have hS0def : (h.length + 1 + r) - best.length
          = (h.length + 1 + r) - best.length := rfl
      generalize hS0gen : (h.length + 1 + r) - best.length = S0 at hS0def
      have hSeq : (h.length + (r + 1)) - best.length = S0 := by omega
      have hmiddef : (if 1 ≤ min S0 r then Bnd P.N r (min S0 r) else 0)
          = (if 1 ≤ min S0 r then Bnd P.N r (min S0 r) else 0) := rfl
      generalize hmidgen :
        (if 1 ≤ min S0 r then Bnd P.N r (min S0 r) else 0) = mid at hmiddef
      have hfcnt := @foldl_jcbbStep_cnt P chi2inv metric jm q thrML
        (jcbbGo P chi2inv metric jm q thrML r) hA1 hA2 r ih i h best
        S0 mid hS0gen.symm hmidgen.symm (List.range P.N) (best, cnt + 1)
        (Nat.le_refl _)
      simp only [List.length_range] at hfcnt
      have hfle := @foldl_jcbbStep_fst_le P chi2inv metric jm q thrML
        (jcbbGo P chi2inv metric jm q thrML r) hA1 r i h
        (List.range P.N) (best, cnt + 1)
      have hcases := @foldl_jcbbStep_acc_cases P chi2inv metric jm q thrML
        (jcbbGo P chi2inv metric jm q thrML r) hA1 hA2 r i h
        (List.range P.N) (best, cnt + 1)
      set p := (List.range P.N).foldl
        (jcbbStep P chi2inv metric jm q thrML
          (jcbbGo P chi2inv metric jm q thrML r) r i h)
        (best, cnt + 1) with hpdef
      have hmidle : mid ≤ Bnd P.N r S0 := by
        rw [← hmidgen]
        split
        · exact Bnd_mono P.N r (Nat.min_le_left S0 r)
        · exact Nat.zero_le _
      have hBndeq : Bnd P.N (r + 1) S0
          = 1 + Bnd P.N r S0 + (P.N - 1) * mid
            + (if 2 ≤ min S0 r then Bnd P.N r (min (S0 - 1) (r - 1)) else 0) := by
        rw [Bnd, if_neg (by omega)]
        by_cases hg : 1 ≤ min S0 r
        · rw [← hmidgen, if_pos hg, if_pos hg]
        · rw [← hmidgen, if_neg hg, if_neg hg, Nat.mul_zero]
      have hNmid : P.N * mid ≤ (P.N - 1) * mid + mid := by
        rcases Nat.eq_zero_or_pos P.N with hN0 | hN1
        · rw [hN0]
          simp
        · have heq : P.N * mid = (P.N - 1) * mid + mid := by
            have hN : (P.N - 1) + 1 = P.N := by omega
            calc P.N * mid = ((P.N - 1) + 1) * mid := by rw [hN]
              _ = (P.N - 1) * mid + mid := by ring
          omega
      have hfcnt2 : p.2 ≤ (cnt + 1)
          + (if best.length < h.length + 1 then Bnd P.N r S0 - mid else 0)
          + P.N * mid := hfcnt
      have hfle2 : best.length ≤ p.1.length := hfle
      have hfresh_le : (if best.length < h.length + 1
          then Bnd P.N r S0 - mid else 0) ≤ Bnd P.N r S0 - mid := by
        split
        · exact Nat.le_refl _
        · exact Nat.zero_le _
      rw [hSeq]
      rcases hcases with hp0 | hpbig
      · -- no candidate branch was explored
        rw [hp0]
        by_cases hskip : (best, cnt + 1).1.length < h.length + r
        · rw [if_pos hskip]
          show (jcbbGo P chi2inv metric jm q thrML r (i + 1) h best
            (cnt + 1)).2 ≤ cnt + Bnd P.N (r + 1) S0
          have hchild := ih (i + 1) h best (cnt + 1)
          have hS1 : (h.length + r) - best.length ≤ S0 := by omega
          have hmono := Bnd_mono P.N r hS1
          omega
        · rw [if_neg hskip]
          show cnt + 1 ≤ cnt + Bnd P.N (r + 1) S0
          have := Bnd_pos P.N r S0
          omega
      · -- at least one branch was explored: incumbent at least h.length + 1
        by_cases hskip : p.1.length < h.length + r
        · rw [if_pos hskip]
          have hchild := ih (i + 1) h p.1 p.2
          have hpbest : best.length ≤ p.1.length := hfle2
          have hSsk1 : 1 ≤ (h.length + r) - p.1.length := by omega
          have hSskr : (h.length + r) - p.1.length ≤ r - 1 := by omega
          have hSskS : (h.length + r) - p.1.length ≤ S0 - 1 := by omega
          have hming : 2 ≤ min S0 r := by omega
          have hskipterm : Bnd P.N r ((h.length + r) - p.1.length)
              ≤ Bnd P.N r (min (S0 - 1) (r - 1)) :=
            Bnd_mono P.N r (by omega)
          have hM3 : (if 2 ≤ min S0 r
              then Bnd P.N r (min (S0 - 1) (r - 1)) else 0)
              = Bnd P.N r (min (S0 - 1) (r - 1)) := if_pos hming
          rw [hBndeq, hM3]
          omega
        · rw [if_neg hskip]
          rw [hBndeq]
          omega

end JCBBCount

/-! ### Well-formedness of hypotheses -/

theorem goodHyp_nil (a N : Nat) : goodHyp a N [] :=
  ⟨List.nodup_nil, List.nodup_nil, by simp⟩

theorem goodHyp_mono {a b N : Nat} {h : Hyp} (hab : a ≤ b)
    (hg : goodHyp a N h) : goodHyp b N h := by
  obtain ⟨h1, h2, h3⟩ := hg
  exact ⟨h1, h2, fun p hp => ⟨Nat.lt_of_lt_of_le (h3 p hp).1 hab, (h3 p hp).2⟩⟩

theorem goodHyp_cons {i N j : Nat} {h : Hyp} (hg : goodHyp i N h)
    (hclaim : (h.map Prod.snd).contains j = false) (hjN : j < N) :
    goodHyp (i + 1) N ((i, j) :: h) := by
  obtain ⟨h1, h2, h3⟩ := hg
  have hjnot : j ∉ h.map Prod.snd := by
    intro hmem
    simp [List.contains, hmem] at hclaim
  refine ⟨?_, ?_, ?_⟩
  · rw [List.map_cons]
    refine List.nodup_cons.mpr ⟨?_, h1⟩
    intro hmem
    obtain ⟨p, hp, hpi⟩ := List.mem_map.mp hmem
    exact absurd hpi (Nat.ne_of_gt (h3 p hp).1).symm
  · rw [List.map_cons]
    exact List.nodup_cons.mpr ⟨hjnot, h2⟩
  · intro p hp
    rcases List.mem_cons.mp hp with heq | hin
    · rw [heq]
      exact ⟨Nat.lt_succ_self i, hjN⟩
    · exact ⟨Nat.lt_succ_of_lt (h3 p hin).1, (h3 p hin).2⟩

section JCBBGood

variable {P : DAProblem} {chi2inv : ℚ → Nat → ℚ}
variable {metric jm : TDataAssociationMetric} {q thrML : ℚ}

theorem foldl_jcbbStep_good
    (child : Nat → Hyp → Hyp → Nat → Hyp × Nat) (r i : Nat) (h : Hyp)
    (hchild : ∀ i2 h2 b2 c2, goodHyp i2 P.N h2 → goodHyp (i2 + r) P.N b2 →
      goodHyp (i2 + r) P.N (child i2 h2 b2 c2).1)
    (hg : goodHyp i P.N h) :
    ∀ (l : List Nat) (acc : Hyp × Nat), (∀ j ∈ l, j < P.N) →
      goodHyp (i + 1 + r) P.N acc.1 →
      goodHyp (i + 1 + r) P.N
        ((l.foldl (jcbbStep P chi2inv metric jm q thrML child r i h)
          acc).1) := by
  intro l
  induction l with
  | nil => intro acc _ hacc; exact hacc
  | cons j js ih =>
    intro acc hjs hacc
    rw [List.foldl_cons]
    refine ih _ (fun j2 hj2 => hjs j2 (List.mem_cons_of_mem j hj2)) ?_
    unfold jcbbStep
    split
    · next hcond =>
      have hjN : j < P.N := hjs j (List.mem_cons_self j js)
      exact hchild (i + 1) ((i, j) :: h) acc.1 acc.2
        (goodHyp_cons hg hcond.1 hjN) hacc
    · exact hacc

theorem jcbbGo_good (r : Nat) : ∀ (i : Nat) (h best : Hyp) (cnt : Nat),
    goodHyp i P.N h → goodHyp (i + r) P.N best →
    goodHyp (i + r) P.N
      (jcbbGo P chi2inv metric jm q thrML r i h best cnt).1 := by
  induction r with
  | zero =>
    intro i h best cnt hh hb
    simp only [jcbbGo]
    split
    · simpa using hh
    · exact hb
  | succ r ih =>
    intro i h best cnt hh hb
    simp only [jcbbGo]
    have heq : i + 1 + r = i + (r + 1) := by omega
    have hfold := @foldl_jcbbStep_good P chi2inv metric jm q thrML
      (jcbbGo P chi2inv metric jm q thrML r) r i h ih hh
      (List.range P.N) (best, cnt + 1)
      (fun j2 hj2 => List.mem_range.mp hj2)
      (by rw [heq]; exact hb)
    set p := (List.range P.N).foldl
      (jcbbStep P chi2inv metric jm q thrML
        (jcbbGo P chi2inv metric jm q thrML r) r i h)
      (best, cnt + 1) with hpdef
    split
    · have hres := ih (i + 1) h p.1 p.2
        (goodHyp_mono (Nat.le_succ i) hh) hfold
      rw [heq] at hres
      exact hres
    · rw [← heq]
      exact hfold

end JCBBGood

/-! ### Well-formedness of the nearest-neighbor matcher -/

theorem nnBestFor_spec {compat : Nat → Nat → Bool}
    {dist : Nat → Nat → Option ℚ} {N i : Nat} {claimed : List Nat}
    {jd : Nat × ℚ} (h : nnBestFor compat dist N i claimed = some jd) :
    jd.1 < N ∧ claimed.contains jd.1 = false ∧ compat i jd.1 = true := by
  have hgen : ∀ (l : List Nat) (acc : Option (Nat × ℚ)),
      (∀ j ∈ l, j < N) →
      (∀ x, acc = some x → x.1 < N ∧ claimed.contains x.1 = false ∧
        compat i x.1 = true) →
      ∀ x, l.foldl
          (fun acc j =>
            if claimed.contains j then acc
            else match dist i j with
              | none => acc
              | some d =>
                if compat i j then
                  match acc with
                  | none => some (j, d)
                  | some jd => if d < jd.2 then some (j, d) else acc
                else acc)
          acc = some x →
        x.1 < N ∧ claimed.contains x.1 = false ∧ compat i x.1 = true := by
    intro l
    induction l with
    | nil => intro acc _ hinv x hx; exact hinv x hx
    | cons j js ihl =>
      intro acc hjs hinv x hx
      rw [List.foldl_cons] at hx
      refine ihl _ (fun j2 hj2 => hjs j2 (List.mem_cons_of_mem j hj2)) ?_ x hx
      intro y hy
      by_cases hcl : claimed.contains j
      · rw [if_pos hcl] at hy
        exact hinv y hy
      · rw [if_neg hcl] at hy
        have hjN : j < N := hjs j (List.mem_cons_self j js)
        have hclf : claimed.contains j = false := by
          cases hb : claimed.contains j
          · rfl
          · exact absurd hb hcl
        cases hd : dist i j with
        | none => simp only [hd] at hy; exact hinv y hy
        | some d =>
          simp only [hd] at hy
          by_cases hcp : compat i j = true
          · rw [if_pos hcp] at hy
            cases hacc : acc with
            | none =>
              simp only [hacc] at hy
              have hyd : y = (j, d) := Option.some_inj.mp hy.symm
              rw [hyd]
              exact ⟨hjN, hclf, hcp⟩
            | some jd0 =>
              simp only [hacc] at hy
              by_cases hlt : d < jd0.2
              · rw [if_pos hlt] at hy
                have hyd : y = (j, d) := Option.some_inj.mp hy.symm
                rw [hyd]
                exact ⟨hjN, hclf, hcp⟩
              · rw [if_neg hlt] at hy
                have hyd : y = jd0 := Option.some_inj.mp hy.symm
                rw [hyd]
                exact hinv jd0 hacc
          · rw [if_neg hcp] at hy
            exact hinv y hy
  exact hgen (List.range N) none (fun j2 hj2 => List.mem_range.mp hj2)
    (fun x hx => Option.noConfusion hx) jd h

theorem nnRun_good (compat : Nat → Nat → Bool)
    (dist : Nat → Nat → Option ℚ) (N : Nat) :
    ∀ M, goodHyp M N (nnRun compat dist M N) := by
  intro M
  induction M with
  | zero => exact goodHyp_nil 0 N
  | succ M ih =>
    unfold nnRun at ih ⊢
    rw [List.range_succ, List.foldl_append, List.foldl_cons, List.foldl_nil]
    set acc0 := List.foldl
      (fun acc i =>
        match nnBestFor compat dist N i (acc.map Prod.snd) with
        | none => acc
        | some jd => acc ++ [(i, jd.1)])
      ([] : Hyp) (List.range M) with hacc0
    cases hbest : nnBestFor compat dist N M (acc0.map Prod.snd) with
    | none =>
      simp only [hbest]
      exact goodHyp_mono (Nat.le_succ M) ih
    | some jd =>
      simp only [hbest]
      obtain ⟨h1, h2, h3⟩ := ih
      obtain ⟨hjN, hclf, _⟩ := nnBestFor_spec hbest
      have hjnot : jd.1 ∉ acc0.map Prod.snd := by
        intro hmem
        simp [List.contains, hmem] at hclf
      refine ⟨?_, ?_, ?_⟩
      · rw [List.map_append]
        simp only [List.map_cons, List.map_nil]
        rw [← List.concat_eq_append]
        refine List.Nodup.concat ?_ h1
        intro hmem
        obtain ⟨p, hp, hpi⟩ := List.mem_map.mp hmem
        exact absurd hpi (Nat.ne_of_gt (h3 p hp).1).symm
      · rw [List.map_append]
        simp only [List.map_cons, List.map_nil]
        rw [← List.concat_eq_append]
        exact List.Nodup.concat hjnot h2
      · intro p hp
        rcases List.mem_append.mp hp with hin | hnew
        · exact ⟨Nat.lt_succ_of_lt (h3 p hin).1, (h3 p hin).2⟩
        · have : p = (M, jd.1) := by simpa using hnew
          rw [this]
          exact ⟨Nat.lt_succ_self M, hjN⟩

/-! ### Well-formedness of the packaged associations -/

theorem daRun_good (P : DAProblem) (chi2inv : ℚ → Nat → ℚ)
    (method : TDataAssociationMethod) (metric : TDataAssociationMetric)
    (q : ℚ) (jm : TDataAssociationMetric) (thr : ℚ) :
    goodHyp P.M P.N (daRun P chi2inv method metric q jm thr).1 := by
  unfold daRun
  split
  · exact goodHyp_nil P.M P.N
  · cases method with
    | assocNN => exact nnRun_good _ _ _ P.M
    | assocJCBB =>
      have hgood := @jcbbGo_good P chi2inv metric jm q thr P.M 0 [] [] 0
        (goodHyp_nil 0 P.N) (goodHyp_nil (0 + P.M) P.N)
      obtain ⟨h1, h2, h3⟩ := hgood
      simp only [Nat.zero_add] at h1 h2 h3
      refine ⟨?_, ?_, ?_⟩
      · rw [List.map_reverse]
        exact List.nodup_reverse.mpr h1
      · rw [List.map_reverse]
        exact List.nodup_reverse.mpr h2
      · intro p hp
        exact h3 p (List.mem_reverse.mp hp)

theorem remapIDs_map_fst (ids : List Nat) (l : Hyp) :
    (remapIDs ids l).map Prod.fst = l.map Prod.fst := by
  by_cases h : ids.isEmpty
  · rw [remapIDs, if_pos h]
  · rw [remapIDs, if_neg h, List.map_map]
    rfl

/-! ### C1: the associations map is a partial injection -/

/-- C1: for every valid input (ID table absent, or of length N and made
of distinct identifiers) and for both methods, the associations map of a
successful query is a partial injection: the observation keys are
pairwise distinct and the prediction indices (or external IDs) stored as
values are pairwise distinct. -/
theorem associations_partial_injection (P : DAProblem)
    (chi2inv : ℚ → Nat → ℚ) (method : TDataAssociationMethod)
    (metric : TDataAssociationMetric) (q : ℚ) (ids : List Nat)
    (jm : TDataAssociationMetric) (thr : ℚ)
    {res : TDataAssociationResults}
    (hids : ids = [] ∨ (ids.length = P.N ∧ ids.Nodup))
    (hok : data_association_full_covariance P chi2inv method metric q ids jm
      thr = Except.ok res) :
    (res.associations.map Prod.fst).Nodup ∧
    (res.associations.map Prod.snd).Nodup := by
  obtain ⟨hres, -, -⟩ := da_ok_inv hok
  subst hres
  obtain ⟨h1, h2, h3⟩ := daRun_good P chi2inv method metric q jm thr
  constructor
  · show ((remapIDs ids
      (daRun P chi2inv method metric q jm thr).1).map Prod.fst).Nodup
    rw [remapIDs_map_fst]
    exact h1
  · show ((remapIDs ids
      (daRun P chi2inv method metric q jm thr).1).map Prod.snd).Nodup
    by_cases hemp : ids.isEmpty
    · simp only [remapIDs, if_pos hemp]
      exact h2
    · rcases hids with hnil | ⟨hlen, hnodup⟩
      · rw [hnil] at hemp
        exact absurd rfl hemp
      · have hmaps : (remapIDs ids
            (daRun P chi2inv method metric q jm thr).1).map Prod.snd
            = ((daRun P chi2inv method metric q jm thr).1.map Prod.snd).map
              (fun k => ids.getD k k) := by
          simp only [remapIDs, if_neg hemp, List.map_map]
          rfl
        rw [hmaps]
        refine List.Nodup.map_on ?_ h2
        intro x hx y hy hxy
        have hxN : x < P.N := by
          obtain ⟨p, hp, hpx⟩ := List.mem_map.mp hx
          rw [← hpx]
          exact (h3 p hp).2
        have hyN : y < P.N := by
          obtain ⟨p, hp, hpy⟩ := List.mem_map.mp hy
          rw [← hpy]
          exact (h3 p hp).2
        rw [List.getD_eq_getElem ids x (by omega),
          List.getD_eq_getElem ids y (by omega)] at hxy
        exact (List.Nodup.getElem_inj_iff hnodup).mp hxy

/-- C1 witness: the partial-injection theorem applied to a concrete
two-observation query with the external ID table [10, 20]. -/
theorem associations_partial_injection_witness :
    ((daPackage probC7 chi2invA TDataAssociationMethod.assocNN metricMaha
      (99 / 100) [10, 20] metricMaha 0).associations.map Prod.fst).Nodup ∧
    ((daPackage probC7 chi2invA TDataAssociationMethod.assocNN metricMaha
      (99 / 100) [10, 20] metricMaha 0).associations.map Prod.snd).Nodup :=
  associations_partial_injection probC7 chi2invA
    TDataAssociationMethod.assocNN metricMaha (99 / 100) [10, 20] metricMaha 0
    (Or.inr ⟨rfl, by decide⟩)
    (@da_ok_of_valid probC7 chi2invA TDataAssociationMethod.assocNN metricMaha
      (99 / 100) [10, 20] metricMaha 0 (Or.inr rfl) (fun _ _ => rfl))

/-! ### C3: the ID round trip -/

/-- C3: when a non-empty predictions_IDs vector of length N is supplied,
every value stored in the associations map of a successful query is
predictions_IDs[j] for the chosen prediction row j — the map is exactly
the raw hypothesis translated through the table, and every chosen raw
row index is below N, so no raw index escapes untranslated. -/
theorem associations_values_from_ids (P : DAProblem)
    (chi2inv : ℚ → Nat → ℚ) (method : TDataAssociationMethod)
    (metric : TDataAssociationMetric) (q : ℚ) (ids : List Nat)
    (jm : TDataAssociationMetric) (thr : ℚ)
    {res : TDataAssociationResults}
    (hlen : ids.length = P.N) (hN : 0 < P.N)
    (hok : data_association_full_covariance P chi2inv method metric q ids jm
      thr = Except.ok res) :
    res.associations
      = ((daRun P chi2inv method metric q jm thr).1).map
          (fun pr => (pr.1, ids.getD pr.2 pr.2)) ∧
    ∀ pr ∈ (daRun P chi2inv method metric q jm thr).1, pr.2 < P.N := by
  obtain ⟨hres, -, -⟩ := da_ok_inv hok
  subst hres
  constructor
  · show remapIDs ids (daRun P chi2inv method metric q jm thr).1 = _
    have hemp : ¬ ids.isEmpty := by
      rw [List.isEmpty_iff]
      intro h0
      rw [h0] at hlen
      simp at hlen
      omega
    simp only [remapIDs, if_neg hemp]
  · intro pr hpr
    exact ((daRun_good P chi2inv method metric q jm thr).2.2 pr hpr).2

/-- C3 witness: the ID round-trip theorem applied to a concrete
two-observation query with the ID table [10, 20]. -/
theorem associations_values_from_ids_witness :
    (daPackage probC7 chi2invA TDataAssociationMethod.assocNN metricMaha
      (99 / 100) [10, 20] metricMaha 0).associations
      = ((daRun probC7 chi2invA TDataAssociationMethod.assocNN metricMaha
          (99 / 100) metricMaha 0).1).map
          (fun pr => (pr.1, [10, 20].getD pr.2 pr.2)) :=
  (associations_values_from_ids probC7 chi2invA
    TDataAssociationMethod.assocNN metricMaha (99 / 100) [10, 20] metricMaha 0
    rfl (by decide)
    (@da_ok_of_valid probC7 chi2invA TDataAssociationMethod.assocNN metricMaha
      (99 / 100) [10, 20] metricMaha 0 (Or.inr rfl) (fun _ _ => rfl))).1

/-! ### C8: the node counter -/

/-- C8 (amended): for every successful query, the node counter is 0 when
the nearest-neighbor method is used, and is bounded by (N + 1) ^ M when
the JCBB method is used (the loose combinatorial ceiling of the search
tree: at each of the M levels, a node can branch into at most N
assignments plus one skip).  The third part of the original claim — that
the node count never increases when the quantile is decreased — does not
hold; see the counterexample. -/
theorem node_count_spec (P : DAProblem) (chi2inv : ℚ → Nat → ℚ)
    (method : TDataAssociationMethod) (metric : TDataAssociationMetric)
    (q : ℚ) (ids : List Nat) (jm : TDataAssociationMetric) (thr : ℚ)
    {res : TDataAssociationResults}
    (hok : data_association_full_covariance P chi2inv method metric q ids jm
      thr = Except.ok res) :
    (method = TDataAssociationMethod.assocNN →
      res.nNodesExploredInJCBB = 0) ∧
    (method = TDataAssociationMethod.assocJCBB →
      res.nNodesExploredInJCBB ≤ (P.N + 1) ^ P.M) := by
  obtain ⟨hres, -, -⟩ := da_ok_inv hok
  subst hres
  constructor
  · intro hm
    subst hm
    show (daRun P chi2inv TDataAssociationMethod.assocNN metric q jm thr).2 = 0
    unfold daRun
    split
    · rfl
    · rfl
  · intro hm
    subst hm
    show (daRun P chi2inv TDataAssociationMethod.assocJCBB metric q jm thr).2
      ≤ (P.N + 1) ^ P.M
    unfold daRun
    split
    · exact Nat.zero_le _
    · next hMN =>
      have hM : 1 ≤ P.M := by omega
      have hN : 1 ≤ P.N := by
        rcases Nat.eq_zero_or_pos P.N with h0 | h1
        · exact absurd (Or.inr h0) hMN
        · exact h1
      have hcnt := @jcbbGo_cnt P chi2inv metric jm q thr P.M 0 [] [] 0
      simp only [List.length_nil, Nat.zero_add, Nat.sub_zero, Nat.add_zero]
        at hcnt
      calc (jcbbGo P chi2inv metric jm q thr P.M 0 [] [] 0).2
          ≤ Bnd P.N P.M P.M := hcnt
        _ ≤ (P.N + 1) ^ P.M := Bnd_diag_le_pow hN hM

/-- C8 counterexample: on a fixed four-observation, four-prediction
input, decreasing the quantile from 99/100 to 9/10 (with the chi-square
thresholds shrinking accordingly, as the true chi-square quantiles do)
makes the JCBB search explore 7 nodes instead of 5: with the looser
gates the search dives straight to a cardinality-4 incumbent and prunes
everything else, while with the tighter gates the early pairing is
rejected, the incumbent stays small, and more skip branches stay
alive. -/
theorem node_count_quantile_cex :
    mkRat 9 10 < mkRat 99 100 ∧
    (resOf (data_association_independent_predictions probC8 chi2invC
      TDataAssociationMethod.assocJCBB metricMaha (mkRat 99 100) [] metricMaha
      0)).nNodesExploredInJCBB = 5 ∧
    (resOf (data_association_independent_predictions probC8 chi2invC
      TDataAssociationMethod.assocJCBB metricMaha (mkRat 9 10) [] metricMaha
      0)).nNodesExploredInJCBB = 7 := by
  refine ⟨by decide, by decide, by decide⟩

/-- C8 witness: the amended node-count theorem applied to the concrete
four-observation query: 7 respectively 0 nodes, both below 5 ^ 4. -/
theorem node_count_spec_witness :
    (daPackage probC8 chi2invC TDataAssociationMethod.assocJCBB metricMaha
      (mkRat 9 10) [] metricMaha 0).nNodesExploredInJCBB
      ≤ (probC8.N + 1) ^ probC8.M :=
  (node_count_spec probC8 chi2invC TDataAssociationMethod.assocJCBB metricMaha
    (mkRat 9 10) [] metricMaha 0
    (@da_ok_of_valid probC8 chi2invC TDataAssociationMethod.assocJCBB
      metricMaha (mkRat 9 10) [] metricMaha 0 (Or.inl rfl)
      (fun _ _ => rfl))).2 rfl

/-! ### C7: cardinality of JCBB versus nearest neighbor -/

/-- C7 (amended): for identical inputs and configuration, whenever the
hypothesis produced by the greedy nearest-neighbor matcher is a
gate-feasible chain for the joint compatibility test (every initial
segment of it, in processing order, passes the joint gate), the JCBB
result contains at least as many associations as the nearest-neighbor
result.  Without that proviso the joint gate can reject the
nearest-neighbor hypothesis and JCBB may return strictly fewer pairs. -/
theorem jcbb_nn_cardinality_dominance (P : DAProblem)
    (chi2inv : ℚ → Nat → ℚ) (metric : TDataAssociationMetric) (q : ℚ)
    (ids : List Nat) (jm : TDataAssociationMetric) (thr : ℚ)
    {resJ resN : TDataAssociationResults}
    (hchain : extChainOK P chi2inv metric jm q thr P.M 0 []
      (nnRun (indivCompat P chi2inv metric q thr) P.indivDist P.M P.N) = true)
    (hJ : data_association_full_covariance P chi2inv
      TDataAssociationMethod.assocJCBB metric q ids jm thr = Except.ok resJ)
    (hN : data_association_full_covariance P chi2inv
      TDataAssociationMethod.assocNN metric q ids jm thr = Except.ok resN) :
    resN.associations.length ≤ resJ.associations.length := by
  obtain ⟨hres1, -, -⟩ := da_ok_inv hJ
  obtain ⟨hres2, -, -⟩ := da_ok_inv hN
  subst hres1
  subst hres2
  simp only [daPackage, remapIDs_length]
  by_cases hMN : P.M = 0 ∨ P.N = 0
  · simp [daRun, if_pos hMN]
  · simp only [daRun, if_neg hMN]
    have hchain2 := jcbbGo_ge_chain P.M 0 [] [] 0
      (nnRun (indivCompat P chi2inv metric q thr) P.indivDist P.M P.N) hchain
    simpa using hchain2

/-- C7 counterexample: two observations, each individually compatible
only with its own prediction at distance 5; both single pairs pass the
joint gate but their union fails it (5 + 5 = 10 exceeds the
2-degrees-of-freedom gate 9, while 5 is below the 1-degree gate 6, as
for the true chi-square quantiles near 0.97).  Nearest neighbor pairs
both observations; JCBB returns a single pair: JCBB produces strictly
fewer associations than nearest neighbor. -/
theorem jcbb_nn_cardinality_dominance_cex :
    (resOf (data_association_independent_predictions probC7 chi2invA
      TDataAssociationMethod.assocJCBB metricMaha (99 / 100) [] metricMaha
      0)).associations.length <
    (resOf (data_association_independent_predictions probC7 chi2invA
      TDataAssociationMethod.assocNN metricMaha (99 / 100) [] metricMaha
      0)).associations.length := by
  decide

/-- C7 witness: the amended dominance theorem applied to a concrete
query whose nearest-neighbor hypothesis is jointly gate-feasible. -/
theorem jcbb_nn_cardinality_dominance_witness :
    (daPackage probC7b chi2invA TDataAssociationMethod.assocNN metricMaha
      (99 / 100) [] metricMaha 0).associations.length ≤
    (daPackage probC7b chi2invA TDataAssociationMethod.assocJCBB
      metricMaha (99 / 100) [] metricMaha 0).associations.length :=
  jcbb_nn_cardinality_dominance probC7b chi2invA metricMaha (99 / 100) []
    metricMaha 0 (by decide)
    (@da_ok_of_valid probC7b chi2invA TDataAssociationMethod.assocJCBB
      metricMaha (99 / 100) [] metricMaha 0 (Or.inl rfl) (fun _ _ => rfl))
    (@da_ok_of_valid probC7b chi2invA TDataAssociationMethod.assocNN
      metricMaha (99 / 100) [] metricMaha 0 (Or.inl rfl) (fun _ _ => rfl))

/-! ### C9: default construction and clear() -/

/-- C9: a default-constructed TDataAssociationResults, and the result of
clear() on any TDataAssociationResults, have an empty associations map,
distance 0, 0 x 0 distance and compatibility matrices, an empty counts
vector and a zero JCBB node counter. -/
theorem results_default_and_clear_empty (r : TDataAssociationResults) :
    TDataAssociationResults.clear r = TDataAssociationResults.mkDefault ∧
    TDataAssociationResults.mkDefault.associations = [] ∧
    TDataAssociationResults.mkDefault.distance = 0 ∧
    TDataAssociationResults.mkDefault.indiv_distances.rows = 0 ∧
    TDataAssociationResults.mkDefault.indiv_distances.cols = 0 ∧
    TDataAssociationResults.mkDefault.indiv_compatibility.rows = 0 ∧
    TDataAssociationResults.mkDefault.indiv_compatibility.cols = 0 ∧
    TDataAssociationResults.mkDefault.indiv_compatibility_counts = [] ∧
    TDataAssociationResults.mkDefault.nNodesExploredInJCBB = 0 := by
  exact ⟨rfl, rfl, rfl, rfl, rfl, rfl, rfl, rfl, rfl⟩

/-! ### C10: getCovarianceEntropy never evaluates log at a non-positive
argument -/

/-- C10: the argument passed to the logarithm by getCovarianceEntropy is
clamped from below by the machine epsilon, hence strictly positive for
every covariance determinant, including zero and negative values from a
singular matrix; the entropy is therefore computed from a well-defined
logarithm. -/
theorem covarianceEntropy_log_arg_pos (det : ℚ) :
    0 < covarianceEntropyLogArg det ∧
    epsilonDouble ≤ covarianceEntropyLogArg det := by
  constructor
  · have h : (0 : ℚ) < epsilonDouble := by norm_num [epsilonDouble]
    exact lt_of_lt_of_le h (le_max_right det epsilonDouble)
  · exact le_max_right det epsilonDouble

end MRPT
